import Mathlib

/- Verification development for the Butler desktop-assistant repository.

   The definitions below are shallow embeddings of the Python sources:
   - package/workflow_manager.py          (WorkflowManager)
   - local_interpreter/interpreter.py     (Interpreter)
   - butler/core/extension_manager.py     (ExtensionManager)
   - butler/code_execution_manager.py     (CodeExecutionManager)
   - butler/core/intent_dispatcher.py     (IntentRegistry)

   Python dicts are modelled as insertion-ordered association lists
   (`SDict`): looking up a key returns the first binding, updating an
   existing key rewrites it in place, and inserting a new key appends
   it at the end, exactly like CPython dict semantics. -/

set_option maxHeartbeats 1000000

/-- Insertion-ordered string-keyed dictionary, the model of a Python dict. -/
abbrev SDict (α : Type) : Type := List (String × α)

/-- `d.get(k)` as an `Option`: the first binding of key `k`, if any. -/
def dget {α : Type} (d : SDict α) (k : String) : Option α :=
  match d with
  | [] => none
  | (k', v) :: rest => if k' = k then some v else dget rest k

/-- `d.get(k, default)`. -/
def dgetD {α : Type} (d : SDict α) (k : String) (v₀ : α) : α :=
  (dget d k).getD v₀

/-- `d[k] = v`: rewrite the binding in place if `k` is present (CPython keeps
    the original position), otherwise append the new binding at the end. -/
def dset {α : Type} (d : SDict α) (k : String) (v : α) : SDict α :=
  match d with
  | [] => [(k, v)]
  | (k', v') :: rest => if k' = k then (k, v) :: rest else (k', v') :: dset rest k v

/-- The keys of the dictionary in insertion order. -/
def dkeys {α : Type} (d : SDict α) : List String :=
  d.map Prod.fst

/- ===== Workflow planner (package/workflow_manager.py) ===== -/

/-- The mutable state that `WorkflowManager._read_module_config` populates:
    `self.costs`, `self.positions` and `self.graph` (a `defaultdict(list)`
    mapping a dependency to the modules that depend on it). -/
structure WfState where
  costs : SDict Int
  positions : SDict String
  graph : SDict (List String)
deriving Repr, DecidableEq

/-- Drop leading whitespace characters from a character list. -/
def dropLeadingWs : List Char → List Char
  | [] => []
  | c :: cs => if c.isWhitespace then dropLeadingWs cs else c :: cs

/-- Python `str.strip()` with no argument: remove leading and trailing
    whitespace. -/
def pyStrip (s : String) : String :=
  String.mk ((dropLeadingWs (dropLeadingWs s.data).reverse).reverse)

/-- Accumulator pass of `str.split()`: flush the current token at each
    whitespace run. -/
def splitWsAux : List Char → List Char → List String
  | [], acc => if acc = [] then [] else [String.mk acc.reverse]
  | c :: cs, acc =>
    if c.isWhitespace then
      if acc = [] then splitWsAux cs []
      else String.mk acc.reverse :: splitWsAux cs []
    else splitWsAux cs (c :: acc)

/-- Python `str.split()` with no argument: split on runs of whitespace,
    dropping empty fields. -/
def pySplitWs (s : String) : List String :=
  splitWsAux s.data []

/-- Accumulator pass of `str.split(',')`. -/
def splitCommaAux : List Char → List Char → List String
  | [], acc => [String.mk acc.reverse]
  | c :: cs, acc =>
    if c = ',' then String.mk acc.reverse :: splitCommaAux cs []
    else splitCommaAux cs (c :: acc)

/-- Python `str.split(',')`: split on every comma, keeping empty fields
    (so `"".split(',') == ['']`). -/
def pySplitComma (s : String) : List String :=
  splitCommaAux s.data []

/-- Whether the first character of `s` is `c` (Python `s.startswith(c)` for a
    single-character needle). -/
def strFirstIs (s : String) (c : Char) : Bool :=
  match s.data with
  | [] => false
  | c' :: _ => c' = c

/-- The numeric value of a digit list. -/
def digitsVal (l : List Char) : Nat :=
  l.foldl (fun a c => a * 10 + (c.toNat - 48)) 0

/-- Python `int(s)` on a whitespace-free token: an optional sign followed by
    decimal digits, `none` when a `ValueError` would be raised.  (CPython also
    accepts `_` digit grouping and surrounding whitespace; neither occurs in
    the spec format's tokens.) -/
def parsePyInt (s : String) : Option Int :=
  match s.data with
  | [] => none
  | c :: rest =>
    if c = '-' then
      if rest ≠ [] ∧ rest.all Char.isDigit then some (-(digitsVal rest : Int)) else none
    else if c = '+' then
      if rest ≠ [] ∧ rest.all Char.isDigit then some ((digitsVal rest : Int)) else none
    else
      if (c :: rest).all Char.isDigit then some ((digitsVal (c :: rest) : Int)) else none

/-- The body of `_read_module_config` run on the whitespace-split fields of one
    non-blank, non-comment line: unpack module/cost/position (skipping the line
    on a cost `ValueError`), then record cost and position and append the module
    to `graph[dep]` for each non-empty comma-separated dependency. -/
def processParts (st : WfState) (parts : List String) : WfState :=
  if parts.length < 3 then st
  else
    match parsePyInt ((parts.get? 1).getD "") with
    | none => st
    | some cost =>
      let moduleName := (parts.get? 0).getD ""
      let positionKey := (parts.get? 2).getD ""
      let dependencies := if parts.length > 3 then pySplitComma ((parts.get? 3).getD "") else []
      let st' : WfState :=
        { st with
          costs := dset st.costs moduleName cost
          positions := dset st.positions moduleName positionKey }
      dependencies.foldl
        (fun st dep =>
          if dep ≠ "" then
            { st with graph := dset st.graph dep (dgetD st.graph dep [] ++ [moduleName]) }
          else st)
        st'

/-- One iteration of the line loop of `_read_module_config`: strip the line,
    skip blanks and `#` comments, otherwise process the split fields. -/
def processConfigLine (st : WfState) (rawLine : String) : WfState :=
  let line := pyStrip rawLine
  if line = "" || strFirstIs line '#' then st
  else processParts st (pySplitWs line)

/-- `_read_module_config` over the lines of the configuration file. -/
def readModuleConfig (lines : List String) : WfState :=
  lines.foldl processConfigLine ⟨[], [], []⟩

/-- `u → v` is a dependency edge: `v ∈ self.graph.get(u, [])`. -/
def wfEdge (graph : SDict (List String)) (u v : String) : Prop :=
  v ∈ dgetD graph u []

instance (graph : SDict (List String)) (u v : String) : Decidable (wfEdge graph u v) := by
  unfold wfEdge; infer_instance

/-- `in_degree = {u: 0 for u in all_modules}` (the comprehension of
    `_topological_sort`; `all_modules` is duplicate-free as `list(set(...))`). -/
def inDegreeInit (allModules : List String) : SDict Int :=
  allModules.map (fun u => (u, 0))

/-- `if u not in in_degree: in_degree[u] = 0`. -/
def inDegreeAddKey (d : SDict Int) (u : String) : SDict Int :=
  if (dget d u).isSome then d else d ++ [(u, 0)]

/-- The body of `for u in self.graph: ... for v in self.graph[u]:
    in_degree[v] = in_degree.get(v, 0) + 1`. -/
def inDegreeStep (d : SDict Int) (p : String × List String) : SDict Int :=
  p.2.foldl (fun d v => dset d v (dgetD d v 0 + 1)) (inDegreeAddKey d p.1)

/-- The fully built `in_degree` table of `_topological_sort`. -/
def inDegreeTable (graph : SDict (List String)) (allModules : List String) : SDict Int :=
  graph.foldl inDegreeStep (inDegreeInit allModules)

/-- `queue = deque([u for u in in_degree if in_degree[u] == 0])`. -/
def initQueue (inDeg : SDict Int) : List String :=
  (inDeg.filter (fun p => p.2 = 0)).map Prod.fst

/-- One decrement of the inner `for v in self.graph.get(u, [])` loop of Kahn's
    algorithm: `in_degree[v] -= 1` and enqueue `v` when it reaches 0. -/
def kahnDecStep (st : SDict Int × List String) (v : String) : SDict Int × List String :=
  let d := dgetD st.1 v 0 - 1
  (dset st.1 v d, if d = 0 then st.2 ++ [v] else st.2)

/-- The inner `for v in self.graph.get(u, [])` loop of Kahn's algorithm. -/
def kahnStep (graph : SDict (List String)) (inDeg : SDict Int) (queue : List String)
    (u : String) : SDict Int × List String :=
  (dgetD graph u []).foldl kahnDecStep (inDeg, queue)

/-- The `while queue` loop of `_topological_sort`.  The loop pops each key at
    most once (a key's in-degree reaches 0 by a decrement at most once), so it
    runs at most `|in_degree|` iterations; with fuel `|in_degree| + 1` the
    truncated run and the unbounded Python loop either agree exactly or both
    produce a list longer than `|in_degree|`, which the caller's length check
    maps to the same `[]` result. -/
def kahnLoop (graph : SDict (List String)) :
    Nat → SDict Int → List String → List String → List String
  | 0, _, _, sorted => sorted
  | fuel + 1, inDeg, queue, sorted =>
    match queue with
    | [] => sorted
    | u :: rest =>
      let st := kahnStep graph inDeg rest u
      kahnLoop graph fuel st.1 st.2 (sorted ++ [u])

/-- `WorkflowManager._topological_sort`: Kahn's algorithm; on a detected cycle
    (the sorted list misses some key) return `[]`. -/
def topologicalSort (graph : SDict (List String)) (allModules : List String) : List String :=
  let inDeg := inDegreeTable graph allModules
  let sorted := kahnLoop graph (inDeg.length + 1) inDeg (initQueue inDeg) []
  if sorted.length = inDeg.length then sorted else []

/-- `float('inf')` arithmetic on distances: `none` models infinity. -/
def optAdd : Option Int → Int → Option Int
  | none, _ => none
  | some x, w => some (x + w)

/-- `x < y` on distances where `none` is `+inf` (`inf < inf` is false). -/
def optLt : Option Int → Option Int → Bool
  | none, _ => false
  | some _, none => true
  | some x, some y => decide (x < y)

/-- One relaxation of the edge `u → v` inside the `for v in self.graph.get(u,
    [])` loop: `if min_costs[u] + cost[v] < min_costs[v]`, update distance and
    predecessor. -/
def relaxOne (costs : SDict Int) (u : String)
    (q : SDict (Option Int) × SDict (Option String)) (v : String) :
    SDict (Option Int) × SDict (Option String) :=
  let w := dgetD costs v 0
  if optLt (optAdd (dgetD q.1 u none) w) (dgetD q.1 v none) then
    (dset q.1 v (optAdd (dgetD q.1 u none) w), dset q.2 v (some u))
  else q

/-- The body of `for u in sorted_modules` in `_find_shortest_path`: skip `u`
    when `min_costs[u]` is infinite, otherwise relax every edge `u → v` with
    weight `self.costs.get(v, 0)`. -/
def relaxEdges (graph : SDict (List String)) (costs : SDict Int)
    (p : SDict (Option Int) × SDict (Option String)) (u : String) :
    SDict (Option Int) × SDict (Option String) :=
  if dgetD p.1 u none = none then p
  else (dgetD graph u []).foldl (relaxOne costs u) p

/-- `WorkflowManager._find_shortest_path`: distances (`min_costs`, with `none`
    as `INFINITY`) and predecessors after topological-order relaxation. -/
def findShortestPath (graph : SDict (List String)) (costs : SDict Int)
    (start : String) (allModules : List String) :
    SDict (Option Int) × SDict (Option String) :=
  let sorted := topologicalSort graph allModules
  let minCosts0 : SDict (Option Int) := allModules.map (fun m => (m, none))
  let preds0 : SDict (Option String) := allModules.map (fun m => (m, none))
  if sorted = [] then (minCosts0, preds0)
  else
    if (dget minCosts0 start).isSome then
      (topologicalSort graph allModules).foldl (relaxEdges graph costs)
        (dset minCosts0 start (some 0), preds0)
    else (minCosts0, preds0)

/-- The `while current is not None` walk of `_get_optimal_route`, with fuel
    (the predecessor chain strictly descends the topological order, so
    `|predecessors| + 1` steps always suffice for the runs the planner
    reaches; Python's loop has no bound and would not terminate on a cyclic
    predecessor table, which a completed topological sort rules out). -/
def routeWalk (preds : SDict (Option String)) (start : String) :
    Nat → String → List String → List String
  | 0, _, route => route
  | fuel + 1, current, route =>
    let route' := route ++ [current]
    if current = start then route'
    else
      match dgetD preds current none with
      | none => route'
      | some c => routeWalk preds start fuel c route'

/-- `WorkflowManager._get_optimal_route`. -/
def getOptimalRoute (start endModule : String) (preds : SDict (Option String)) :
    List String :=
  if dgetD preds endModule none = none ∧ endModule ≠ start then []
  else (routeWalk preds start (preds.length + 1) endModule []).reverse

/-- A start-to-`v` path in the dependency graph together with its cost: the sum
    of `costs.get(n, 0)` over every node of the path except the start (the
    planner's edge `u → v` carries weight `cost[v]`). -/
inductive PathTo (graph : SDict (List String)) (costs : SDict Int) (start : String) :
    String → Int → Prop
  | base : PathTo graph costs start start 0
  | step {u v : String} {c : Int} :
      PathTo graph costs start u c → wfEdge graph u v →
      PathTo graph costs start v (c + dgetD costs v 0)

/-- The plan's total cost: the sum of the costs of every plan node except the
    first. -/
def planCost (costs : SDict Int) (route : List String) : Int :=
  ((route.drop 1).map (fun v => dgetD costs v 0)).sum

/- ----- Proof-side notions for the planner correctness development ----- -/

/-- The total multiplicity of `v` among the graph's adjacency lists: the full
    in-degree of `v`. -/
def totalCount (graph : SDict (List String)) (v : String) : Int :=
  (graph.map (fun p => (p.2.count v : Int))).sum

/-- The in-degree of `v` counting only edges whose source has not yet been
    popped into `sorted`. -/
def remCount (graph : SDict (List String)) (sorted : List String) (v : String) : Int :=
  ((graph.filter (fun p => decide (p.1 ∉ sorted))).map (fun p => (p.2.count v : Int))).sum

/-- Index of the first occurrence of `a` in a list (length when absent). -/
def firstPos : List String → String → Nat
  | [], _ => 0
  | x :: rest, a => if x = a then 0 else firstPos rest a + 1

/-- Order on distances with `none` as `+inf` on top. -/
def distLE : Option Int → Option Int → Prop
  | _, none => True
  | none, some _ => False
  | some x, some y => x ≤ y

/-- The invariant of the `while queue` loop of `_topological_sort`. -/
structure KahnInv (graph : SDict (List String)) (allModules : List String)
    (inDeg : SDict Int) (queue sorted : List String) : Prop where
  keys : dkeys inDeg = allModules
  vals : ∀ v, dgetD inDeg v 0 = remCount graph sorted v
  sortedNodup : sorted.Nodup
  queueNodup : queue.Nodup
  sortedSub : ∀ v ∈ sorted, v ∈ allModules
  queueIff : ∀ v, v ∈ queue ↔
    (v ∈ allModules ∧ v ∉ sorted ∧ remCount graph sorted v = 0)
  sortedZero : ∀ v ∈ sorted, remCount graph sorted v = 0
  sortedBefore : ∀ v ∈ sorted, ∀ p ∈ graph, v ∈ p.2 →
    ∃ A B, sorted = A ++ p.1 :: B ∧ v ∈ B

/-- The invariant of the relaxation loop of `_find_shortest_path` after the
    nodes of `processed` have been relaxed. -/
structure RelaxInv (graph : SDict (List String)) (costs : SDict Int)
    (allModules : List String) (start : String) (processed : List String)
    (M : SDict (Option Int)) (P : SDict (Option String)) : Prop where
  keysM : dkeys M = allModules
  keysP : dkeys P = allModules
  mStart : dgetD M start none = some 0
  pStart : dgetD P start none = none
  predRel : ∀ v u', dgetD P v none = some u' →
    wfEdge graph u' v ∧ u' ∈ processed ∧ dgetD M u' none ≠ none ∧
    dgetD M v none = optAdd (dgetD M u' none) (dgetD costs v 0)
  pathEx : ∀ v dv, dgetD M v none = some dv → PathTo graph costs start v dv
  predNone : ∀ v, dgetD P v none = none → dgetD M v none = none ∨ v = start

/-- A three-module chain used to witness the planner theorem. -/
def wGraph : SDict (List String) := [("a", ["b", "c"]), ("b", ["c"])]

/-- Costs for the witness modules. -/
def wCosts : SDict Int := [("a", 1), ("b", 2), ("c", 3)]

/-- The witness module universe. -/
def wModules : List String := ["a", "b", "c"]

/- ===== Agent loop (local_interpreter/interpreter.py) ===== -/

/-- One part of a list-typed message content: a dict with a `"type"` key and
    either a `"text"` or an `"image_url": {"url": ...}` entry. -/
structure MsgPart where
  ptype : String
  text : Option String
  imageUrl : Option String
deriving Repr, DecidableEq

/-- Message content: a plain string or a list of parts. -/
inductive MsgContent
  | str (s : String)
  | parts (l : List MsgPart)
deriving Repr, DecidableEq

/-- One entry of `self.conversation_history`. -/
structure Turn where
  role : String
  content : MsgContent
deriving Repr, DecidableEq

/-- The structured decision streamed by the Orchestrator: the pydantic models
    `PythonCode`, `ExternalToolCall` and `FinalResponse`. -/
inductive AIDecision
  | pythonCode (thought code : String)
  | externalToolCall (thought toolName : String) (args : List String)
  | finalResponse (thought message : String)
deriving Repr, DecidableEq

/-- The `thought` field every variant carries. -/
def AIDecision.thought : AIDecision → String
  | .pythonCode t _ => t
  | .externalToolCall t _ _ => t
  | .finalResponse t _ => t

/-- An event yielded by the interpreter generators: `(kind, payload)`. -/
abbrev IEvent : Type := String × String

/-- A value of `self.registered_programs[name]` in CodeExecutionManager. -/
structure ProgData where
  path : String
  description : String
  language : String
  runCommand : Option String
deriving Repr, DecidableEq

/-- One entry of `CodeExecutionManager.get_program_descriptions()`. -/
structure ToolDesc where
  toolName : String
  description : String
  args : List String
deriving Repr, DecidableEq

/-- `get_program_descriptions` over the registered-programs dict. -/
def getProgramDescriptions (progs : SDict ProgData) : List ToolDesc :=
  progs.map (fun p => ⟨p.1, p.2.description, ["..."]⟩)

/-- The mutable fields of `Interpreter` that the loop reads and writes. -/
structure InterpState where
  history : List Turn
  safetyMode : Bool
  osMode : Bool
  maxIterations : Nat
  lastCodeForApproval : Option String
  lastToolForApproval : Option (String × List String)
  isReady : Bool
  programs : SDict ProgData
deriving Repr, DecidableEq

/-- The effectful collaborators of the loop, abstracted as pure oracles: the
    Orchestrator's streamed partial decisions (a function of the history, the
    `os_mode` flag and the tool catalogue), `_execute_code` (output, success),
    `execute_program` (success, output) and the OS-mode screen capture (a
    base64 string per step index). -/
structure InterpOracle where
  streamGen : List Turn → Bool → List ToolDesc → List AIDecision
  execCode : Bool → String → String × Bool
  execProgram : String → List String → Bool × String
  captureScreen : Nat → String

/-- The screenshot-downgrade pass of `_run_loop`: any part whose `"type"` is
    `"image_url"` becomes a text placeholder and loses its image payload. -/
def downgradePart (p : MsgPart) : MsgPart :=
  if p.ptype = "image_url" then
    ⟨"text", some "[Previous Screenshot Omitted to save space]", none⟩
  else p

/-- Downgrade pass over one history message (string contents untouched). -/
def downgradeTurn (t : Turn) : Turn :=
  match t.content with
  | .str _ => t
  | .parts l => ⟨t.role, .parts (l.map downgradePart)⟩

/-- The fresh OS-mode user turn appended after a screen capture. -/
def screenTurn (b64 : String) : Turn :=
  ⟨"user", .parts
    [⟨"text", some "Current Screen Observation:", none⟩,
     ⟨"image_url", none, some ("data:image/png;base64," ++ b64)⟩]⟩

/-- The `for partial_response in stream` loop of `_run_loop`: track the last
    partial decision and the last yielded thought, emitting the new thought
    suffix under the `"code_chunk"` event kind whenever a partial's thought is
    non-empty and differs from the last yielded one. -/
def processStream (ps : List AIDecision) : Option AIDecision × String × List IEvent :=
  ps.foldl
    (fun acc d =>
      if d.thought ≠ "" ∧ d.thought ≠ acc.2.1 then
        (some d, d.thought, acc.2.2 ++ [("code_chunk", d.thought.drop acc.2.1.length)])
      else (some d, acc.2.1, acc.2.2))
    (none, "", [])

/-- `_add_assistant_response_to_history`. -/
def addAssistantResponse (h : List Turn) (osCommand : Bool) (code output : String) :
    List Turn :=
  let responseType := if osCommand then "Executed OS Commands" else "Executed Code"
  h ++ [⟨"assistant",
    .str (responseType ++ ":\n```python\n" ++ code ++ "```\nOutput:\n```\n" ++ output ++ "```")⟩]

/-- The assistant turn appended after an external tool dispatch. -/
def toolResponseTurn (name : String) (args : List String) (output : String) : Turn :=
  ⟨"assistant",
    .str ("Executed External Tool:\n`" ++ name ++ " " ++ String.intercalate " " args
      ++ "`\nOutput:\n```\n" ++ output ++ "```")⟩

/-- `Interpreter._run_loop`: `fuel` counts the remaining iterations of
    `for i in range(len(history), len(history) + max_iterations)` and `i` is
    the current value of the loop variable (the range is fixed at entry, so
    `i` just increments).  Returns the yielded events and the final state. -/
def runLoop (o : InterpOracle) : Nat → Nat → InterpState → List IEvent × InterpState
  | 0, _, st => ([], st)
  | fuel + 1, i, st =>
    let evs0 : List IEvent := [("status", "Thinking (Step " ++ toString i ++ ")...")]
    let st1 :=
      if st.osMode then
        { st with history :=
            (st.history.map downgradeTurn) ++ [screenTurn (o.captureScreen i)] }
      else st
    let descs := getProgramDescriptions st1.programs
    let ps := o.streamGen st1.history st1.osMode descs
    let pr := processStream ps
    let chunkEvs := pr.2.2
    match pr.1 with
    | none =>
      (evs0 ++ chunkEvs ++ [("result", "Error: Failed to get a response from the AI.")], st1)
    | some (.finalResponse _ message) =>
      (evs0 ++ chunkEvs ++ [("result", "\n**Final Answer:** " ++ message)], st1)
    | some (.pythonCode _ code) =>
      let previewEv : List IEvent := [("code_chunk", "\n```python\n" ++ code ++ "\n```\n")]
      if st1.safetyMode then
        (evs0 ++ chunkEvs ++ previewEv
          ++ [("result", "\nAction requires approval. Type `/approve` to continue.")],
         { st1 with lastCodeForApproval := some code })
      else
        let r := o.execCode st1.osMode code
        let st2 := { st1 with history := addAssistantResponse st1.history st1.osMode code r.1 }
        let rest := runLoop o fuel (i + 1) st2
        (evs0 ++ chunkEvs ++ previewEv ++ [("status", "Executing...")]
          ++ [("result", "Output:\n" ++ r.1)] ++ rest.1, rest.2)
    | some (.externalToolCall _ name args) =>
      let previewEv : List IEvent :=
        [("code_chunk", "\nTool Call: `" ++ name ++ "(" ++ String.intercalate ", " args ++ ")`\n")]
      if st1.safetyMode then
        (evs0 ++ chunkEvs ++ previewEv
          ++ [("result", "\nAction requires approval. Type `/approve` to continue.")],
         { st1 with lastToolForApproval := some (name, args) })
      else
        let r := o.execProgram name args
        let st2 := { st1 with history := st1.history ++ [toolResponseTurn name args r.2] }
        let rest := runLoop o fuel (i + 1) st2
        (evs0 ++ chunkEvs ++ previewEv ++ [("status", "Executing tool " ++ name ++ "...")]
          ++ [("result", "Output:\n" ++ r.2)] ++ rest.1, rest.2)

/-- `Interpreter.run(user_input)`: bail out when not ready, otherwise append
    the user turn and enter `_run_loop`. -/
def runInterp (o : InterpOracle) (st : InterpState) (userInput : String) :
    List IEvent × InterpState :=
  if st.isReady = false then
    ([("result", "Error: Interpreter is not ready. Please check API key.")], st)
  else
    let st1 := { st with history := st.history ++ [⟨"user", .str userInput⟩] }
    runLoop o st1.maxIterations st1.history.length st1

/-- Python truthiness of `self.last_code_for_approval` (a `None`-or-string
    slot: `None` and `""` are falsy). -/
def codeSlotTruthy : Option String → Bool
  | none => false
  | some s => s ≠ ""

/-- `Interpreter.run_approved_code`: execute the staged code or tool if any
    (then resume the loop), otherwise report that nothing is staged. -/
def runApprovedCode (o : InterpOracle) (st : InterpState) : List IEvent × InterpState :=
  if codeSlotTruthy st.lastCodeForApproval then
    let code := st.lastCodeForApproval.getD ""
    let st1 := { st with lastCodeForApproval := none }
    let r := o.execCode st1.osMode code
    let st2 := { st1 with history := addAssistantResponse st1.history st1.osMode code r.1 }
    let rest := runLoop o st2.maxIterations st2.history.length st2
    ([("status", "Executing approved code..."), ("result", "Output:\n" ++ r.1)] ++ rest.1,
     rest.2)
  else
    match st.lastToolForApproval with
    | some (name, args) =>
      let st1 := { st with lastToolForApproval := none }
      let r := o.execProgram name args
      let st2 := { st1 with history := st1.history ++ [toolResponseTurn name args r.2] }
      let rest := runLoop o st2.maxIterations st2.history.length st2
      ([("status", "Executing approved tool: " ++ name ++ "..."),
        ("result", "Output:\n" ++ r.2)] ++ rest.1, rest.2)
    | none => ([("result", "No action to approve.")], st)

/-- Modelled after the spec's streaming description for comparison with the
    code: the successive "new suffixes" of the decision's `thought` field as
    the stream of partials arrives (first argument: last emitted thought). -/
def specThoughtSuffixes : String → List AIDecision → List String
  | _, [] => []
  | last, d :: ps =>
    if d.thought ≠ "" ∧ d.thought ≠ last then
      d.thought.drop last.length :: specThoughtSuffixes d.thought ps
    else specThoughtSuffixes last ps

/- ===== Extension registry (butler/core/extension_manager.py) ===== -/

/-- A loaded plugin as the catalogue sees it: its `get_commands()` surface. -/
structure PluginData where
  commands : List String
deriving Repr, DecidableEq

/-- A loaded package module as the catalogue sees it: its `__doc__`. -/
structure PackageData where
  doc : Option String
deriving Repr, DecidableEq

/-- The three tool dictionaries an `ExtensionManager` holds. -/
structure ExtState where
  plugins : SDict PluginData
  programs : SDict ProgData
  packages : SDict PackageData
deriving Repr, DecidableEq

/-- One entry of the unified catalogue (`name`, `type`, `description`). -/
structure ToolEntry where
  name : String
  ttype : String
  description : String
deriving Repr, DecidableEq

/-- `ExtensionManager.get_all_tools`: plugins, then external programs, then
    packages, each kind appended independently of the others. -/
def getAllTools (st : ExtState) : List ToolEntry :=
  (st.plugins.map (fun p =>
    ⟨p.1, "plugin",
      "Plugin: " ++ p.1 ++ ". Handles commands like: " ++ String.intercalate ", " p.2.commands⟩))
  ++ (st.programs.map (fun p => ⟨p.1, "program", p.2.description⟩))
  ++ (st.packages.map (fun p =>
    ⟨p.1, "package",
      match p.2.doc with
      | some d => if d = "" then "Python package." else d
      | none => "Python package."⟩))

/-- `self.packages[package_name] = module` during `_scan_packages`. -/
def registerPackage (st : ExtState) (name : String) (m : PackageData) : ExtState :=
  { st with packages := dset st.packages name m }

/-- `self.registered_programs[name] = {...}` during program registration. -/
def registerProgram (st : ExtState) (name : String) (p : ProgData) : ExtState :=
  { st with programs := dset st.programs name p }

/- ===== Program build check (butler/code_execution_manager.py) ===== -/

/-- A snapshot of the file system: existence and modification times (mtimes
    are reals in Python; only their order matters here). -/
structure FileSys where
  pathExists : String → Bool
  mtime : String → Int

/-- `os.path.join(project_path, rel)` for the relative paths a manifest holds. -/
def pjoin (a b : String) : String := a ++ "/" ++ b

/-- The fields `_compile_and_register_project` reads from a parsed
    `manifest.json` (each via `.get`, so every field may be absent). -/
structure WfManifest where
  name : Option String
  language : Option String
  build : Option String
  source : List String
  executable : Option String
  runCommand : Option String
  description : Option String

/-- Python truthiness of an optional string field (`None` and `""` falsy). -/
def optStrTruthy : Option String → Bool
  | none => false
  | some s => s ≠ ""

/-- The `if not all([name, language, build_command, source_files,
    executable_name])` guard: note an empty `source` list is falsy too. -/
def manifestFieldsOk (m : WfManifest) : Bool :=
  optStrTruthy m.name && optStrTruthy m.language && optStrTruthy m.build
    && (m.source ≠ []) && optStrTruthy m.executable

/-- The `needs_compilation` computation: rebuild when the executable is
    missing, or some source file is missing or has a strictly newer mtime. -/
def needsCompilation (fs : FileSys) (projectPath : String) (sourceFiles : List String)
    (executablePath : String) : Bool :=
  if fs.pathExists executablePath = false then true
  else
    sourceFiles.any (fun src =>
      fs.pathExists (pjoin projectPath src) = false
        || fs.mtime executablePath < fs.mtime (pjoin projectPath src))

/-- The possible outcomes of running the manifest's build command. -/
inductive BuildOutcome
  | ok (fs' : FileSys)
  | processError
  | keyError

/-- `_compile_and_register_project`: returns whether a build was attempted and
    the updated registered-programs dict (registration happens only when the
    executable exists afterwards). -/
def compileAndRegisterProject (fs : FileSys) (build : BuildOutcome) (projectPath : String)
    (m : WfManifest) (registered : SDict ProgData) : Bool × SDict ProgData :=
  if manifestFieldsOk m = false then (false, registered)
  else
    let exePath := pjoin projectPath (m.executable.getD "")
    let needs := needsCompilation fs projectPath m.source exePath
    let fsAfter : Option FileSys :=
      if needs then
        match build with
        | .ok fs' => some fs'
        | .processError => none
        | .keyError => none
      else some fs
    (needs,
      match fsAfter with
      | none => registered
      | some f =>
        if f.pathExists exePath then
          dset registered (m.name.getD "")
            ⟨exePath, m.description.getD "", m.language.getD "", m.runCommand⟩
        else registered)

/- ===== Intent registry (butler/core/intent_dispatcher.py) ===== -/

/-- A raised Python exception: `isExceptionSubclass` is true for classes
    deriving `Exception` and false for `BaseException`-only classes such as
    `SystemExit` and `KeyboardInterrupt` (which `except Exception` misses). -/
structure PyExc where
  isExceptionSubclass : Bool
  msg : String
deriving Repr, DecidableEq

/-- One entry of `IntentRegistry._intents`: the handler (a function of the
    keyword arguments that either returns or raises), the docstring and the
    `requires_entities` flag. -/
structure IntentData (κ α : Type) where
  function : κ → Except PyExc α
  docstring : Option String
  requiresEntities : Bool

/-- `IntentRegistry.register` stores the handler under the intent name. -/
def registerIntent {κ α : Type} (reg : SDict (IntentData κ α)) (name : String)
    (d : IntentData κ α) : SDict (IntentData κ α) :=
  dset reg name d

/-- `IntentRegistry.dispatch`: unknown intent returns `None`; a handler raise
    of an `Exception` subclass is caught and returns `None`; any other raise
    escapes (`Except.error`). -/
def dispatchIntent {κ α : Type} (reg : SDict (IntentData κ α)) (name : String)
    (kwargs : κ) : Except PyExc (Option α) :=
  match dget reg name with
  | none => .ok none
  | some d =>
    match d.function kwargs with
    | .ok v => .ok (some v)
    | .error e => if e.isExceptionSubclass then .ok none else .error e

/-- The intents `match_intent_locally` actually scores: those whose docstring
    is neither `None` nor empty, in registration order. -/
def validDocs {κ α : Type} (reg : SDict (IntentData κ α)) : List (String × String) :=
  reg.filterMap (fun p =>
    match p.2.docstring with
    | none => none
    | some d => if d = "" then none else some (p.1, d))

/-- The body of the best-match fold of `match_intent_locally` (skip empty
    docstrings; strict improvement updates `best_match`/`highest`). -/
def bestStep {κ α : Type} (sim : String → String → ℚ) (command : String)
    (acc : Option String × ℚ) (p : String × IntentData κ α) : Option String × ℚ :=
  match p.2.docstring with
  | none => acc
  | some doc =>
    if doc = "" then acc
    else if sim command doc > acc.2 then (some p.1, sim command doc) else acc

/-- `IntentRegistry.match_intent_locally`, parameterized by the similarity
    function `sim` standing for `algorithms.text_cosine_similarity` (an
    external sklearn TF-IDF computation; only its scores matter here, and a
    cosine of nonnegative vectors lies in `[0, 1]`). -/
def matchIntentLocally {κ α : Type} (sim : String → String → ℚ)
    (reg : SDict (IntentData κ α)) (command : String) (threshold : ℚ) : Option String :=
  if reg.isEmpty then none
  else
    let r := reg.foldl (bestStep sim command) (none, -1)
    if r.2 ≥ threshold then r.1 else none

/-- The valid-docstring fold body with the skip already applied (used to
    characterize the matcher's fold). -/
def bestStepV (sim : String → String → ℚ) (command : String)
    (acc : Option String × ℚ) (p : String × String) : Option String × ℚ :=
  if sim command p.2 > acc.2 then (some p.1, sim command p.2) else acc

/- ===== Concrete instances for witnesses and counterexamples ===== -/

/-- An orchestrator whose stream is empty, with trivial executors. -/
def emptyStreamOracle : InterpOracle :=
  ⟨fun _ _ _ => [], fun _ _ => ("", true), fun _ _ => (true, ""), fun _ => ""⟩

/-- A ready interpreter with `max_iterations = 0` and empty history. -/
def zeroIterState : InterpState := ⟨[], true, false, 0, none, none, true, []⟩

/-- An orchestrator that streams one final decision with thought `"hi"`. -/
def finalStreamOracle : InterpOracle :=
  ⟨fun _ _ _ => [.finalResponse "hi" "done"], fun _ _ => ("", true), fun _ _ => (true, ""),
   fun _ => ""⟩

/-- A ready interpreter with `max_iterations = 1` and empty history. -/
def oneIterState : InterpState := ⟨[], true, false, 1, none, none, true, []⟩

/-- An extension state holding a plugin and a package that share the name
    `"x"`. -/
def collidingExtState : ExtState := ⟨[("x", ⟨["c"]⟩)], [], [("x", ⟨some "d"⟩)]⟩

/-- An extension state with one tool of each kind, all names distinct. -/
def uniqueExtState : ExtState :=
  ⟨[("p1", ⟨["go"]⟩)], [("x", ⟨"/programs/x/x", "an external", "c", none⟩)],
   [("pkg", ⟨some "a package"⟩)]⟩

/-- A file system where every path exists with the same mtime. -/
def equalMtimeFs : FileSys := ⟨fun _ => true, fun _ => 100⟩

/-- A complete manifest for the `echo` program. -/
def echoManifest : WfManifest :=
  ⟨some "echo", some "cpp", some "g++ main.cpp -o echo", ["main.cpp"], some "echo", none,
   some "echo program"⟩

/-- A registry with one handler that raises `SystemExit` (not an `Exception`
    subclass). -/
def sysExitIntentReg : SDict (IntentData Unit Unit) :=
  [("quit", ⟨fun _ => .error ⟨false, "SystemExit"⟩, some "Quit the application", false⟩)]

/-- A registry whose single intent has an empty docstring. -/
def emptyDocIntentReg : SDict (IntentData Unit Unit) :=
  [("a", ⟨fun _ => .ok (), some "", true⟩)]

/-- A registry with two intents, registered in anti-lexicographic order, whose
    docstrings are identical (hence always tie under any similarity). -/
def tieIntentReg : SDict (IntentData Unit Unit) :=
  [("zz", ⟨fun _ => .ok (), some "x", true⟩), ("aa", ⟨fun _ => .ok (), some "x", true⟩)]

/-- The constant-zero similarity (the sklearn cosine of any utterance against
    an empty document is 0). -/
def simZero : String → String → ℚ := fun _ _ => 0

/-- The constant-one similarity (any two identical non-empty documents have
    cosine 1). -/
def simOne : String → String → ℚ := fun _ _ => 1

theorem dget_dset_self {α : Type} (d : SDict α) (k : String) (v : α) :
    dget (dset d k v) k = some v := by
  induction d with
  | nil => simp [dset, dget]
  | cons p rest ih =>
    obtain ⟨k', v'⟩ := p
    by_cases h : k' = k
    · simp [dset, h, dget]
    · simp [dset, h, dget, ih]

theorem dget_dset_ne {α : Type} (d : SDict α) (k k' : String) (v : α) (h : k' ≠ k) :
    dget (dset d k v) k' = dget d k' := by
  induction d with
  | nil => simp [dset, dget, Ne.symm h]
  | cons p rest ih =>
    obtain ⟨k₀, v₀⟩ := p
    by_cases h₀ : k₀ = k
    · subst h₀
      simp [dset, dget, Ne.symm h]
    · simp only [dset, if_neg h₀, dget, ih]

theorem dget_eq_none_of_not_mem {α : Type} (d : SDict α) (k : String)
    (h : k ∉ dkeys d) : dget d k = none := by
  induction d with
  | nil => rfl
  | cons p rest ih =>
    obtain ⟨k', v'⟩ := p
    have hd : dkeys ((k', v') :: rest) = k' :: dkeys rest := rfl
    rw [hd] at h
    have h1 : ¬(k' = k) := fun he => h (by simp [he])
    have h2 : k ∉ dkeys rest := fun he => h (List.mem_cons_of_mem _ he)
    simp [dget, h1, ih h2]

theorem dget_isSome_iff_mem {α : Type} (d : SDict α) (k : String) :
    (dget d k).isSome = true ↔ k ∈ dkeys d := by
  induction d with
  | nil => simp [dget, dkeys]
  | cons p rest ih =>
    obtain ⟨k', v'⟩ := p
    have hd : dkeys ((k', v') :: rest) = k' :: dkeys rest := rfl
    rw [hd]
    by_cases h : k' = k
    · subst h; simp [dget]
    · have h' : ¬(k = k') := fun he => h (Eq.symm he)
      simp [dget, h, List.mem_cons, h', ih]

theorem dkeys_dset_of_mem {α : Type} (d : SDict α) (k : String) (v : α)
    (h : k ∈ dkeys d) : dkeys (dset d k v) = dkeys d := by
  induction d with
  | nil => simp [dkeys] at h
  | cons p rest ih =>
    obtain ⟨k', v'⟩ := p
    by_cases h₀ : k' = k
    · subst h₀; simp [dset, dkeys]
    · have hd : dkeys ((k', v') :: rest) = k' :: dkeys rest := rfl
      rw [hd] at h
      have h2 : k ∈ dkeys rest := by
        rcases List.mem_cons.mp h with he | hm
        · exact absurd (Eq.symm he) h₀
        · exact hm
      rw [show dset ((k', v') :: rest) k v = (k', v') :: dset rest k v by simp [dset, h₀]]
      rw [show dkeys ((k', v') :: dset rest k v) = k' :: dkeys (dset rest k v) from rfl]
      rw [ih h2, hd]

theorem dkeys_dset_of_not_mem {α : Type} (d : SDict α) (k : String) (v : α)
    (h : k ∉ dkeys d) : dkeys (dset d k v) = dkeys d ++ [k] := by
  induction d with
  | nil => simp [dset, dkeys]
  | cons p rest ih =>
    obtain ⟨k', v'⟩ := p
    have hd : dkeys ((k', v') :: rest) = k' :: dkeys rest := rfl
    rw [hd] at h
    have h1 : ¬(k' = k) := fun he => h (by simp [he])
    have h2 : k ∉ dkeys rest := fun he => h (List.mem_cons_of_mem _ he)
    rw [show dset ((k', v') :: rest) k v = (k', v') :: dset rest k v by simp [dset, h1]]
    rw [show dkeys ((k', v') :: dset rest k v) = k' :: dkeys (dset rest k v) from rfl]
    rw [ih h2, hd]
    rfl

theorem mem_of_dget_eq_some {α : Type} (d : SDict α) (k : String) (v : α)
    (h : dget d k = some v) : (k, v) ∈ d := by
  induction d with
  | nil => simp [dget] at h
  | cons p rest ih =>
    obtain ⟨k', v'⟩ := p
    by_cases h₀ : k' = k
    · subst h₀
      simp [dget] at h
      rw [← h]
      exact List.mem_cons_self _ _
    · simp [dget, h₀] at h
      exact List.mem_cons_of_mem _ (ih h)

theorem dget_eq_some_of_mem_of_nodup {α : Type} (d : SDict α) (k : String) (v : α)
    (hnd : (dkeys d).Nodup) (h : (k, v) ∈ d) : dget d k = some v := by
  induction d with
  | nil => simp at h
  | cons p rest ih =>
    obtain ⟨k', v'⟩ := p
    have hd : dkeys ((k', v') :: rest) = k' :: dkeys rest := rfl
    rw [hd] at hnd
    have hnd1 : k' ∉ dkeys rest := (List.nodup_cons.mp hnd).1
    have hnd2 : (dkeys rest).Nodup := (List.nodup_cons.mp hnd).2
    rcases List.mem_cons.mp h with he | hm
    · have hk : k = k' := congrArg Prod.fst he
      have hv : v = v' := congrArg Prod.snd he
      subst hk
      simp [dget, hv]
    · have hk : ¬(k' = k) := by
        intro he
        subst he
        exact hnd1 (List.mem_map_of_mem Prod.fst hm)
      simp [dget, hk, ih hnd2 hm]

/- ===== Helper lemmas ===== -/

theorem depsFold_costs (l : List String) (st : WfState) (moduleName : String) :
    (l.foldl
      (fun st dep =>
        if dep ≠ "" then
          { st with graph := dset st.graph dep (dgetD st.graph dep [] ++ [moduleName]) }
        else st)
      st).costs = st.costs := by
  induction l generalizing st with
  | nil => rfl
  | cons d rest ih =>
    rcases eq_or_ne d "" with h | h
    · rw [List.foldl_cons, if_neg (by simp [h])]
      exact ih st
    · rw [List.foldl_cons, if_pos h]
      rw [ih]

theorem processStream_events_general (ps : List AIDecision) (b : Option AIDecision)
    (last : String) (evs : List IEvent) :
    (ps.foldl
      (fun acc d =>
        if d.thought ≠ "" ∧ d.thought ≠ acc.2.1 then
          (some d, d.thought, acc.2.2 ++ [("code_chunk", d.thought.drop acc.2.1.length)])
        else (some d, acc.2.1, acc.2.2))
      (b, last, evs)).2.2
      = evs ++ (specThoughtSuffixes last ps).map (fun s => ("code_chunk", s)) := by
  induction ps generalizing b last evs with
  | nil => simp [specThoughtSuffixes]
  | cons d rest ih =>
    by_cases h : d.thought ≠ "" ∧ d.thought ≠ last
    · simp [List.foldl, h, specThoughtSuffixes, ih]
    · simp [List.foldl, h, specThoughtSuffixes, ih]

/- ===== C2 ===== -/

/-- C2 counterexample: a ready interpreter with `max_iterations = 0` emits no
    event at all from `run` -- not the single synthesized `final` reporting
    that no action was taken which the claim requires (`_run_loop` has no
    ceiling-exhaustion message). -/
theorem c2_counterexample :
    zeroIterState.isReady = true ∧ zeroIterState.maxIterations = 0 ∧
    (runInterp emptyStreamOracle zeroIterState "hi").1 = [] := by
  refine ⟨rfl, rfl, ?_⟩
  rfl

/-- C2 amended: when the iteration budget is exhausted the loop yields nothing
    further (no synthesized final); in particular a ready interpreter with
    `max_iterations = 0` emits no events and only appends the user turn. -/
theorem c2_amended_no_synthesized_final (o : InterpOracle) (st : InterpState)
    (i : Nat) (input : String) (hready : st.isReady = true)
    (hmax : st.maxIterations = 0) :
    runLoop o 0 i st = ([], st) ∧
    runInterp o st input = ([], { st with history := st.history ++ [⟨"user", .str input⟩] }) := by
  constructor
  · rfl
  · unfold runInterp
    rw [hready]
    simp [hmax, runLoop]

theorem c2_amended_no_synthesized_final_witness :
    runLoop emptyStreamOracle 0 0 zeroIterState = ([], zeroIterState) ∧
    runInterp emptyStreamOracle zeroIterState "hi"
      = ([], { zeroIterState with history := [⟨"user", .str "hi"⟩] }) :=
  c2_amended_no_synthesized_final emptyStreamOracle zeroIterState 0 "hi" rfl rfl

/- ===== C3 ===== -/

/-- C3 counterexample: in a run whose streamed decision has thought `"hi"`, the
    thought suffix is emitted under the `"code_chunk"` event kind, and no event
    of kind `"thought_chunk"` is ever emitted (the code has no such kind). -/
theorem c3_counterexample :
    (("code_chunk", "hi") ∈ (runInterp finalStreamOracle oneIterState "go").1) ∧
    (∀ e ∈ (runInterp finalStreamOracle oneIterState "go").1, e.1 ≠ "thought_chunk") := by
  decide

/-- C3 amended: while streaming a decision, every new suffix of the decision's
    `thought` is emitted as an event of kind `"code_chunk"` (there is no
    `thought_chunk` kind); the streaming phase emits exactly those deltas, in
    order, and completed code / tool-call previews are also emitted under
    `"code_chunk"` afterwards. -/
theorem c3_amended_thought_deltas_are_code_chunks (ps : List AIDecision) :
    (processStream ps).2.2 = (specThoughtSuffixes "" ps).map (fun s => ("code_chunk", s)) := by
  unfold processStream
  simpa using processStream_events_general ps none "" []

/- ===== C6 ===== -/

/-- C6 counterexample: the spec line `m -5 p` carries a negative cost, yet
    `_read_module_config` accepts it: module `m` enters the cost table with
    cost `-5` (there is no negative-cost rejection and no `InvalidSpec`
    error anywhere in the reader). -/
theorem c6_counterexample :
    dget (readModuleConfig ["m -5 p"]).costs "m" = some (-5) := by
  rfl

/-- C6 amended: a config line whose cost field parses as an integer --
    negative included -- is accepted: the module is recorded with exactly that
    cost; only a cost that fails to parse as an integer makes the reader skip
    the line. -/
theorem c6_amended_negative_cost_accepted (st : WfState) (m cstr pos : String)
    (deps : List String) (k : Int) (hc : parsePyInt cstr = some k) (hneg : k < 0) :
    dget (processParts st (m :: cstr :: pos :: deps)).costs m = some k := by
  have hlen : ¬ ((m :: cstr :: pos :: deps).length < 3) := by
    simp [List.length]
  unfold processParts
  rw [if_neg hlen]
  simp only [List.get?, Option.getD, hc]
  rw [depsFold_costs]
  exact dget_dset_self st.costs m k

theorem c6_amended_negative_cost_accepted_witness :
    parsePyInt "-5" = some (-5) ∧ (-5 : Int) < 0 ∧
    dget (processParts ⟨[], [], []⟩ ["m", "-5", "p"]).costs "m" = some (-5) :=
  ⟨by decide, by decide,
   c6_amended_negative_cost_accepted ⟨[], [], []⟩ "m" "-5" "p" [] (-5) (by decide) (by decide)⟩

/- ===== C9 ===== -/

/-- C9 counterexample: a handler that raises `SystemExit` (a `BaseException`
    that does not derive `Exception`) escapes `dispatch` -- the `except
    Exception` clause does not catch it, so the raise propagates to the
    caller instead of returning `None`. -/
theorem c9_counterexample :
    dispatchIntent sysExitIntentReg "quit" () = .error ⟨false, "SystemExit"⟩ := by
  rfl

/-- C9 amended: `dispatch` returns `None` for an unregistered intent; a handler
    raise of an `Exception`-derived class is caught and returns `None` (after
    logging); but a raise of a `BaseException`-only class such as `SystemExit`
    or `KeyboardInterrupt` propagates out of `dispatch`. -/
theorem c9_amended_dispatch_contract {κ α : Type} (reg : SDict (IntentData κ α))
    (name : String) (kwargs : κ) :
    (dget reg name = none → dispatchIntent reg name kwargs = .ok none) ∧
    (∀ d, dget reg name = some d →
      (∀ v, d.function kwargs = .ok v → dispatchIntent reg name kwargs = .ok (some v)) ∧
      (∀ e, d.function kwargs = .error e →
        (e.isExceptionSubclass = true → dispatchIntent reg name kwargs = .ok none) ∧
        (e.isExceptionSubclass = false → dispatchIntent reg name kwargs = .error e))) := by
  refine ⟨fun h => by simp [dispatchIntent, h], fun d hd => ⟨fun v hv => ?_, fun e he => ⟨fun hc => ?_, fun hc => ?_⟩⟩⟩
  · simp [dispatchIntent, hd, hv]
  · simp [dispatchIntent, hd, he, hc]
  · simp [dispatchIntent, hd, he, hc]

theorem c9_amended_dispatch_contract_witness :
    dispatchIntent sysExitIntentReg "missing" () = .ok none ∧
    dispatchIntent sysExitIntentReg "quit" () = .error ⟨false, "SystemExit"⟩ :=
  ⟨(c9_amended_dispatch_contract sysExitIntentReg "missing" ()).1 rfl,
   (((c9_amended_dispatch_contract sysExitIntentReg "quit" ()).2
      ⟨fun _ => .error ⟨false, "SystemExit"⟩, some "Quit the application", false⟩ rfl).2
      ⟨false, "SystemExit"⟩ rfl).2 rfl⟩

/- ===== C10 ===== -/

/-- C10: with neither code nor an external tool call staged,
    `run_approved_code` yields exactly one `result` event saying there is no
    action to approve, leaves the whole interpreter state -- history and both
    staging slots included -- unchanged, and does not re-enter `_run_loop`. -/
theorem c10_run_approved_nothing_staged (o : InterpOracle) (st : InterpState)
    (hcode : st.lastCodeForApproval = none) (htool : st.lastToolForApproval = none) :
    runApprovedCode o st = ([("result", "No action to approve.")], st) := by
  unfold runApprovedCode
  rw [hcode, htool]
  rfl

theorem c10_run_approved_nothing_staged_witness :
    runApprovedCode emptyStreamOracle zeroIterState
      = ([("result", "No action to approve.")], zeroIterState) :=
  c10_run_approved_nothing_staged emptyStreamOracle zeroIterState rfl rfl

/- ===== C4 ===== -/

theorem filter_map_const_true {β : Type} (l : List β) (f : β → ToolEntry)
    (q : ToolEntry → Bool) (hf : ∀ b, q (f b) = true) :
    (l.map f).filter q = l.map f := by
  induction l with
  | nil => rfl
  | cons b rest ih => simp [List.map_cons, List.filter_cons, hf, ih]

theorem filter_map_const_false {β : Type} (l : List β) (f : β → ToolEntry)
    (q : ToolEntry → Bool) (hf : ∀ b, q (f b) = false) :
    (l.map f).filter q = [] := by
  induction l with
  | nil => rfl
  | cons b rest ih => simp [List.map_cons, List.filter_cons, hf, ih]

theorem getAllTools_filter_plugin (st : ExtState) :
    ((getAllTools st).filter (fun e => e.ttype == "plugin")).map ToolEntry.name
      = dkeys st.plugins := by
  unfold getAllTools
  rw [List.filter_append, List.filter_append]
  rw [filter_map_const_true _ _ _ (fun b => rfl),
      filter_map_const_false _ _ _ (fun b => rfl),
      filter_map_const_false _ _ _ (fun b => rfl)]
  simp [List.map_map]
  rfl

theorem getAllTools_filter_program (st : ExtState) :
    ((getAllTools st).filter (fun e => e.ttype == "program")).map ToolEntry.name
      = dkeys st.programs := by
  unfold getAllTools
  rw [List.filter_append, List.filter_append]
  rw [filter_map_const_false _ _ _ (fun b => rfl),
      filter_map_const_true _ _ _ (fun b => rfl),
      filter_map_const_false _ _ _ (fun b => rfl)]
  simp [List.map_map]
  rfl

theorem getAllTools_filter_package (st : ExtState) :
    ((getAllTools st).filter (fun e => e.ttype == "package")).map ToolEntry.name
      = dkeys st.packages := by
  unfold getAllTools
  rw [List.filter_append, List.filter_append]
  rw [filter_map_const_false _ _ _ (fun b => rfl),
      filter_map_const_false _ _ _ (fun b => rfl),
      filter_map_const_true _ _ _ (fun b => rfl)]
  simp [List.map_map]
  rfl

/-- C4 counterexample: an extension state holding a plugin and a package both
    named `"x"` puts two catalogue entries named `"x"` of different kinds into
    `get_all_tools`: name ownership is not exclusive across kinds. -/
theorem c4_counterexample :
    ¬ (∀ e₁ ∈ getAllTools collidingExtState, ∀ e₂ ∈ getAllTools collidingExtState,
        e₁.name = e₂.name → e₁.ttype = e₂.ttype) := by
  decide

/-- C4 amended: the catalogue is the concatenation of the three kinds, so the
    same name may be owned by several kinds at once (and `execute` then
    resolves it by the fixed priority plugin, package, program); within each
    single kind names are unique -- one catalogue entry per dict key -- and
    re-registering an existing name is a rebind: the key list is unchanged and
    the binding replaced. -/
theorem c4_amended_per_kind_unique_and_rebind (st : ExtState)
    (hpl : (dkeys st.plugins).Nodup) (hpr : (dkeys st.programs).Nodup)
    (hpk : (dkeys st.packages).Nodup) (name : String) (p : ProgData)
    (hmem : name ∈ dkeys st.programs) :
    ((((getAllTools st).filter (fun e => e.ttype == "plugin")).map ToolEntry.name).Nodup ∧
     (((getAllTools st).filter (fun e => e.ttype == "program")).map ToolEntry.name).Nodup ∧
     (((getAllTools st).filter (fun e => e.ttype == "package")).map ToolEntry.name).Nodup) ∧
    dkeys (registerProgram st name p).programs = dkeys st.programs ∧
    dget (registerProgram st name p).programs name = some p := by
  refine ⟨⟨?_, ?_, ?_⟩, ?_, ?_⟩
  · rw [getAllTools_filter_plugin]; exact hpl
  · rw [getAllTools_filter_program]; exact hpr
  · rw [getAllTools_filter_package]; exact hpk
  · exact dkeys_dset_of_mem st.programs name p hmem
  · exact dget_dset_self st.programs name p

theorem c4_amended_per_kind_unique_and_rebind_witness :
    ((((getAllTools uniqueExtState).filter (fun e => e.ttype == "plugin")).map
        ToolEntry.name).Nodup ∧
     (((getAllTools uniqueExtState).filter (fun e => e.ttype == "program")).map
        ToolEntry.name).Nodup ∧
     (((getAllTools uniqueExtState).filter (fun e => e.ttype == "package")).map
        ToolEntry.name).Nodup) ∧
    dkeys (registerProgram uniqueExtState "x"
        ⟨"/programs/x/x2", "rebuilt", "c", some "./x"⟩).programs
      = dkeys uniqueExtState.programs ∧
    dget (registerProgram uniqueExtState "x"
        ⟨"/programs/x/x2", "rebuilt", "c", some "./x"⟩).programs "x"
      = some ⟨"/programs/x/x2", "rebuilt", "c", some "./x"⟩ :=
  c4_amended_per_kind_unique_and_rebind uniqueExtState (by decide) (by decide) (by decide)
    "x" ⟨"/programs/x/x2", "rebuilt", "c", some "./x"⟩ (by decide)

/- ===== C5 ===== -/

/-- C5 counterexample: with the executable and its single source sharing the
    same mtime, the build is skipped even though the executable is not
    (strictly) newer than every source file, refuting the claimed
    equivalence. -/
theorem c5_counterexample :
    needsCompilation equalMtimeFs "proj" ["main.cpp"] (pjoin "proj" "echo") = false ∧
    ¬ (equalMtimeFs.mtime (pjoin "proj" "main.cpp")
        < equalMtimeFs.mtime (pjoin "proj" "echo")) := by
  constructor
  · rfl
  · decide

/-- C5 amended: for a manifest passing the required-fields check, the build is
    skipped iff the executable exists, every source file exists, and no source
    file has a strictly greater mtime than the executable (equality counts as
    up to date); otherwise a rebuild is attempted (synchronously) before the
    program is registered. -/
theorem c5_amended_skip_iff (fs : FileSys) (projectPath : String)
    (sourceFiles : List String) (executablePath : String) (build : BuildOutcome)
    (m : WfManifest) (registered : SDict ProgData) (hm : manifestFieldsOk m = true) :
    (needsCompilation fs projectPath sourceFiles executablePath = false ↔
      (fs.pathExists executablePath = true ∧
        ∀ src ∈ sourceFiles,
          fs.pathExists (pjoin projectPath src) = true ∧
          fs.mtime (pjoin projectPath src) ≤ fs.mtime executablePath)) ∧
    (compileAndRegisterProject fs build projectPath m registered).1
      = needsCompilation fs projectPath m.source (pjoin projectPath (m.executable.getD "")) := by
  constructor
  · unfold needsCompilation
    cases hex : fs.pathExists executablePath with
    | false => simp [hex]
    | true =>
      rw [if_neg (by simp : ¬(true = false))]
      rw [List.any_eq_false]
      constructor
      · intro h
        refine ⟨rfl, fun src hs => ?_⟩
        have := h src hs
        simp only [Bool.or_eq_true, decide_eq_true_eq, not_or] at this
        constructor
        · cases hps : fs.pathExists (pjoin projectPath src) with
          | false => exact absurd hps this.1
          | true => rfl
        · exact not_lt.mp this.2
      · intro h src hs
        have h2 := (h.2 src hs)
        simp only [Bool.or_eq_true, decide_eq_true_eq, not_or]
        exact ⟨by simp [h2.1], not_lt.mpr h2.2⟩
  · unfold compileAndRegisterProject
    rw [hm]
    rfl

theorem c5_amended_skip_iff_witness :
    needsCompilation equalMtimeFs "proj" ["main.cpp"] (pjoin "proj" "echo") = false :=
  ((c5_amended_skip_iff equalMtimeFs "proj" ["main.cpp"] (pjoin "proj" "echo")
      .processError echoManifest [] (by decide)).1).mpr (by decide)

/- ===== C7 / C8 fold machinery ===== -/

theorem bestFold_eq_validDocs {κ α : Type} (sim : String → String → ℚ) (cmd : String)
    (reg : SDict (IntentData κ α)) (acc : Option String × ℚ) :
    reg.foldl (bestStep sim cmd) acc = (validDocs reg).foldl (bestStepV sim cmd) acc := by
  induction reg generalizing acc with
  | nil => rfl
  | cons p rest ih =>
    obtain ⟨n, d⟩ := p
    rw [List.foldl_cons]
    match hdoc : d.docstring with
    | none =>
      rw [show bestStep sim cmd acc (n, d) = acc by simp [bestStep, hdoc]]
      rw [show validDocs ((n, d) :: rest) = validDocs rest by
        simp [validDocs, List.filterMap_cons, hdoc]]
      exact ih acc
    | some doc =>
      by_cases he : doc = ""
      · rw [show bestStep sim cmd acc (n, d) = acc by simp [bestStep, hdoc, he]]
        rw [show validDocs ((n, d) :: rest) = validDocs rest by
          simp [validDocs, List.filterMap_cons, hdoc, he]]
        exact ih acc
      · rw [show bestStep sim cmd acc (n, d) = bestStepV sim cmd acc (n, doc) by
          simp [bestStep, bestStepV, hdoc, he]]
        rw [show validDocs ((n, d) :: rest) = (n, doc) :: validDocs rest by
          simp [validDocs, List.filterMap_cons, hdoc, he]]
        rw [List.foldl_cons]
        exact ih (bestStepV sim cmd acc (n, doc))

theorem bestFoldV_cases (sim : String → String → ℚ) (cmd : String)
    (l : List (String × String)) (acc : Option String × ℚ) :
    (l.foldl (bestStepV sim cmd) acc = acc ∧ ∀ p ∈ l, sim cmd p.2 ≤ acc.2) ∨
    (∃ l₁ p l₂, l = l₁ ++ p :: l₂ ∧
      l.foldl (bestStepV sim cmd) acc = (some p.1, sim cmd p.2) ∧
      acc.2 < sim cmd p.2 ∧
      (∀ q ∈ l₁, sim cmd q.2 < sim cmd p.2) ∧
      (∀ q ∈ l₂, sim cmd q.2 ≤ sim cmd p.2)) := by
  induction l generalizing acc with
  | nil => exact Or.inl ⟨rfl, by simp⟩
  | cons q rest ih =>
    by_cases hq : sim cmd q.2 > acc.2
    · have hstep : bestStepV sim cmd acc q = (some q.1, sim cmd q.2) := by
        simp [bestStepV, hq]
      rcases ih (some q.1, sim cmd q.2) with ⟨heq, hall⟩ | ⟨l₁, p, l₂, hsplit, hres, hlt, hl₁, hl₂⟩
      · refine Or.inr ⟨[], q, rest, by simp, ?_, hq, by simp, ?_⟩
        · rw [List.foldl_cons, hstep, heq]
        · intro r hr
          exact hall r hr
      · refine Or.inr ⟨q :: l₁, p, l₂, by simp [hsplit], ?_, lt_trans hq hlt, ?_, hl₂⟩
        · rw [List.foldl_cons, hstep]
          exact hres
        · intro r hr
          rcases List.mem_cons.mp hr with hr | hr
          · rw [hr]; exact hlt
          · exact hl₁ r hr
    · have hstep : bestStepV sim cmd acc q = acc := by
        simp [bestStepV, hq]
      rcases ih acc with ⟨heq, hall⟩ | ⟨l₁, p, l₂, hsplit, hres, hlt, hl₁, hl₂⟩
      · refine Or.inl ⟨?_, ?_⟩
        · rw [List.foldl_cons, hstep, heq]
        · intro r hr
          rcases List.mem_cons.mp hr with hr | hr
          · rw [hr]; exact not_lt.mp hq
          · exact hall r hr
      · refine Or.inr ⟨q :: l₁, p, l₂, by simp [hsplit], ?_, hlt, ?_, hl₂⟩
        · rw [List.foldl_cons, hstep]
          exact hres
        · intro r hr
          rcases List.mem_cons.mp hr with hr | hr
          · rw [hr]; exact lt_of_le_of_lt (not_lt.mp hq) hlt
          · exact hl₁ r hr

/- ===== C7 ===== -/

/-- C7 counterexample: an intent whose docstring is empty is skipped by the
    matcher rather than scored, so with threshold 0 the matcher returns `none`
    even though the intent's similarity (0, the sklearn cosine of any utterance
    against an empty document) is not below the threshold -- refuting the
    claimed equivalence over all registered intents. -/
theorem c7_counterexample :
    ¬ (matchIntentLocally simZero emptyDocIntentReg "hello" 0 = none ↔
        ∀ p ∈ emptyDocIntentReg, simZero "hello" ((p.2.docstring).getD "") < 0) := by
  intro h
  have h1 : matchIntentLocally simZero emptyDocIntentReg "hello" 0 = none := by rfl
  have h2 := h.mp h1 ("a", ⟨fun _ => .ok (), some "", true⟩) (by
    show _ ∈ emptyDocIntentReg
    exact List.mem_singleton.mpr rfl)
  exact absurd h2 (by norm_num [simZero])

/-- C7 amended: the matcher returns `none` iff every intent whose docstring is
    non-empty scores strictly below the threshold (intents with a `None` or
    empty docstring are skipped, not scored); otherwise it returns an intent
    of maximal similarity among the scored ones, at or above the threshold. -/
theorem c7_amended_match_none_iff {κ α : Type} (sim : String → String → ℚ)
    (reg : SDict (IntentData κ α)) (cmd : String) (θ : ℚ)
    (hsim : ∀ x y, 0 ≤ sim x y) :
    (matchIntentLocally sim reg cmd θ = none ↔
      ∀ p ∈ validDocs reg, sim cmd p.2 < θ) ∧
    (∀ n, matchIntentLocally sim reg cmd θ = some n →
      ∃ doc, (n, doc) ∈ validDocs reg ∧ θ ≤ sim cmd doc ∧
        ∀ p ∈ validDocs reg, sim cmd p.2 ≤ sim cmd doc) := by
  unfold matchIntentLocally
  by_cases hreg : reg.isEmpty
  · have hnil : reg = [] := List.isEmpty_iff.mp hreg
    subst hnil
    simp [validDocs]
  · rw [if_neg hreg, bestFold_eq_validDocs]
    rcases bestFoldV_cases sim cmd (validDocs reg) (none, -1) with
      ⟨heq, hall⟩ | ⟨l₁, p, l₂, hsplit, hres, _hlt, hl₁, hl₂⟩
    · rw [heq]
      constructor
      · constructor
        · intro _ q hq
          exact absurd (le_trans (hsim cmd q.2) (hall q hq)) (by norm_num)
        · intro _
          by_cases hth : (-1 : ℚ) ≥ θ <;> simp [hth]
      · intro n hn
        by_cases hth : (-1 : ℚ) ≥ θ <;> simp [hth] at hn
    · rw [hres]
      have hpmem : p ∈ validDocs reg := by
        rw [hsplit]
        exact List.mem_append_right _ (List.mem_cons_self _ _)
      have hmax : ∀ q ∈ validDocs reg, sim cmd q.2 ≤ sim cmd p.2 := by
        intro q hq
        rw [hsplit] at hq
        rcases List.mem_append.mp hq with hq | hq
        · exact le_of_lt (hl₁ q hq)
        · rcases List.mem_cons.mp hq with hq | hq
          · rw [hq]
          · exact hl₂ q hq
      by_cases hth : sim cmd p.2 ≥ θ
      · rw [if_pos hth]
        constructor
        · constructor
          · intro h
            cases h
          · intro h
            exact absurd (h p hpmem) (not_lt.mpr hth)
        · intro n hn
          have hne : n = p.1 := (Option.some.injEq _ _).mp hn.symm
          subst hne
          exact ⟨p.2, hpmem, hth, hmax⟩
      · rw [if_neg hth]
        constructor
        · constructor
          · intro _ q hq
            exact lt_of_le_of_lt (hmax q hq) (not_le.mp hth)
          · intro _
            rfl
        · intro n hn
          cases hn

theorem c7_amended_match_none_iff_witness :
    matchIntentLocally simZero emptyDocIntentReg "hello" 1 = none :=
  ((c7_amended_match_none_iff simZero emptyDocIntentReg "hello" 1
      (fun _ _ => le_refl 0)).1).mpr (by decide)

/- ===== C8 ===== -/

/-- C8 counterexample: two intents with identical docstrings (hence always
    tied) are registered as `"zz"` then `"aa"`; with every similarity 1 and
    threshold 0 the tie is at or above the threshold, yet the matcher returns
    `"zz"`, the first registered, not the lexicographically lowest `"aa"`. -/
theorem c8_counterexample :
    matchIntentLocally simOne tieIntentReg "u" 0 = some "zz" ∧
    validDocs tieIntentReg = [("zz", "x"), ("aa", "x")] ∧
    simOne "u" "x" = 1 ∧ (0 : ℚ) ≤ 1 ∧
    ("aa" : String) < "zz" := by
  refine ⟨by rfl, by rfl, by rfl, by norm_num, ?_⟩
  rw [String.lt_iff_toList_lt]
  decide

/-- C8 amended: when the best score clears the threshold the matcher returns
    the earliest-registered intent among those achieving the maximum (strict
    improvement is required to displace the incumbent), not the
    lexicographically lowest: the returned name splits the scored list into a
    strictly-smaller prefix and a no-greater suffix. -/
theorem c8_amended_first_registered_wins {κ α : Type} (sim : String → String → ℚ)
    (reg : SDict (IntentData κ α)) (cmd : String) (θ : ℚ) (n : String)
    (hn : matchIntentLocally sim reg cmd θ = some n) :
    ∃ doc l₁ l₂, validDocs reg = l₁ ++ (n, doc) :: l₂ ∧ θ ≤ sim cmd doc ∧
      (∀ p ∈ l₁, sim cmd p.2 < sim cmd doc) ∧
      (∀ p ∈ l₂, sim cmd p.2 ≤ sim cmd doc) := by
  unfold matchIntentLocally at hn
  by_cases hreg : reg.isEmpty
  · rw [if_pos hreg] at hn
    cases hn
  · rw [if_neg hreg, bestFold_eq_validDocs] at hn
    rcases bestFoldV_cases sim cmd (validDocs reg) (none, -1) with
      ⟨heq, _hall⟩ | ⟨l₁, p, l₂, hsplit, hres, _hlt, hl₁, hl₂⟩
    · rw [heq] at hn
      by_cases hth : (-1 : ℚ) ≥ θ <;> simp [hth] at hn
    · rw [hres] at hn
      by_cases hth : sim cmd p.2 ≥ θ
      · rw [if_pos hth] at hn
        have hne : n = p.1 := (Option.some.injEq _ _).mp hn.symm
        subst hne
        exact ⟨p.2, l₁, l₂, hsplit, hth, hl₁, hl₂⟩
      · rw [if_neg hth] at hn
        cases hn

theorem c8_amended_first_registered_wins_witness :
    ∃ doc l₁ l₂, validDocs tieIntentReg = l₁ ++ ("zz", doc) :: l₂ ∧
      (0 : ℚ) ≤ simOne "u" doc ∧
      (∀ p ∈ l₁, simOne "u" p.2 < simOne "u" doc) ∧
      (∀ p ∈ l₂, simOne "u" p.2 ≤ simOne "u" doc) :=
  c8_amended_first_registered_wins simOne tieIntentReg "u" 0 "zz" (by rfl)

/- ===== C1 development: the in-degree table ===== -/

theorem dget_constMap {α : Type} (L : List String) (c : α) (v : String) :
    dget (L.map (fun m => (m, c))) v = if v ∈ L then some c else none := by
  induction L with
  | nil => simp [dget]
  | cons x rest ih =>
    by_cases h : x = v
    · subst h; simp [dget]
    · have h' : ¬(v = x) := fun he => h (Eq.symm he)
      simp [dget, h, ih, List.mem_cons, h']

theorem dkeys_constMap {α : Type} (L : List String) (c : α) :
    dkeys (L.map (fun m => (m, c))) = L := by
  induction L with
  | nil => rfl
  | cons x rest ih =>
    show x :: dkeys (rest.map (fun m => (m, c))) = x :: rest
    rw [ih]

theorem dget_append_right {α : Type} (d : SDict α) (k w : String) (v : α)
    (h : w ∉ dkeys d) : dget (d ++ [(k, v)]) w = if k = w then some v else none := by
  induction d with
  | nil => simp [dget]
  | cons p rest ih =>
    obtain ⟨k', v'⟩ := p
    have hd : dkeys ((k', v') :: rest) = k' :: dkeys rest := rfl
    rw [hd] at h
    have h1 : ¬(k' = w) := fun he => h (by simp [he])
    have h2 : w ∉ dkeys rest := fun he => h (List.mem_cons_of_mem _ he)
    show dget ((k', v') :: (rest ++ [(k, v)])) w = _
    rw [show dget ((k', v') :: (rest ++ [(k, v)])) w
        = if k' = w then some v' else dget (rest ++ [(k, v)]) w from rfl]
    rw [if_neg h1, ih h2]

theorem dgetD_inDegreeAddKey (d : SDict Int) (u w : String) :
    dgetD (inDegreeAddKey d u) w 0 = dgetD d w 0 := by
  unfold inDegreeAddKey
  cases hu : (dget d u).isSome with
  | true => rw [if_pos rfl]
  | false =>
    rw [if_neg (by simp : ¬(false = true))]
    by_cases hw : w ∈ dkeys d
    · unfold dgetD
      have heq : dget (d ++ [(u, 0)]) w = dget d w := by
        clear hu
        induction d with
        | nil => simp [dkeys] at hw
        | cons p rest ih =>
          obtain ⟨k', v'⟩ := p
          by_cases h1 : k' = w
          · subst h1
            simp [dget]
          · have hd : dkeys ((k', v') :: rest) = k' :: dkeys rest := rfl
            rw [hd] at hw
            have h2 : w ∈ dkeys rest := by
              rcases List.mem_cons.mp hw with he | hm
              · exact absurd (Eq.symm he) h1
              · exact hm
            show dget ((k', v') :: (rest ++ [(u, 0)])) w = _
            rw [show dget ((k', v') :: (rest ++ [(u, 0)])) w
                = if k' = w then some v' else dget (rest ++ [(u, 0)]) w from rfl]
            rw [show dget ((k', v') :: rest) w
                = if k' = w then some v' else dget rest w from rfl]
            rw [ih h2]
      rw [heq]
    · unfold dgetD
      rw [dget_append_right d u w 0 hw, dget_eq_none_of_not_mem d w hw]
      by_cases h1 : u = w <;> simp [h1]

theorem dkeys_inDegreeAddKey (d : SDict Int) (u : String) (h : u ∈ dkeys d) :
    dkeys (inDegreeAddKey d u) = dkeys d := by
  unfold inDegreeAddKey
  rw [if_pos ((dget_isSome_iff_mem d u).mpr h)]

theorem incFold_dgetD (l : List String) (d : SDict Int) (w : String) :
    dgetD (l.foldl (fun d v => dset d v (dgetD d v 0 + 1)) d) w 0
      = dgetD d w 0 + l.count w := by
  induction l generalizing d with
  | nil => simp
  | cons v rest ih =>
    rw [List.foldl_cons, ih]
    by_cases h : v = w
    · subst h
      rw [List.count_cons_self]
      unfold dgetD
      rw [dget_dset_self]
      show dgetD d v 0 + 1 + (rest.count v : Int) = dgetD d v 0 + (((rest.count v) + 1 : Nat) : Int)
      push_cast
      ring
    · rw [List.count_cons_of_ne (fun he => h (Eq.symm he))]
      unfold dgetD
      rw [dget_dset_ne d v w _ (fun he => h (Eq.symm he))]

theorem incFold_dkeys (l : List String) (d : SDict Int) (K : List String)
    (hd : dkeys d = K) (hl : ∀ v ∈ l, v ∈ K) :
    dkeys (l.foldl (fun d v => dset d v (dgetD d v 0 + 1)) d) = K := by
  induction l generalizing d with
  | nil => exact hd
  | cons v rest ih =>
    rw [List.foldl_cons]
    refine ih _ ?_ (fun x hx => hl x (List.mem_cons_of_mem _ hx))
    rw [dkeys_dset_of_mem _ _ _ (by rw [hd]; exact hl v (List.mem_cons_self _ _)), hd]

theorem inDegreeStep_dgetD (d : SDict Int) (p : String × List String) (w : String) :
    dgetD (inDegreeStep d p) w 0 = dgetD d w 0 + p.2.count w := by
  unfold inDegreeStep
  rw [incFold_dgetD, dgetD_inDegreeAddKey]

theorem inDegreeStep_dkeys (d : SDict Int) (p : String × List String) (K : List String)
    (hd : dkeys d = K) (hp : p.1 ∈ K) (hl : ∀ v ∈ p.2, v ∈ K) :
    dkeys (inDegreeStep d p) = K := by
  unfold inDegreeStep
  exact incFold_dkeys _ _ _ (by rw [dkeys_inDegreeAddKey d p.1 (by rw [hd]; exact hp), hd]) hl

theorem inDegreeFold_dgetD (gs : List (String × List String)) (d : SDict Int) (w : String) :
    dgetD (gs.foldl inDegreeStep d) w 0
      = dgetD d w 0 + (gs.map (fun p => (p.2.count w : Int))).sum := by
  induction gs generalizing d with
  | nil => simp
  | cons p rest ih =>
    rw [List.foldl_cons, ih, inDegreeStep_dgetD]
    rw [List.map_cons, List.sum_cons]
    ring

theorem inDegreeTable_dgetD (graph : SDict (List String)) (allModules : List String)
    (w : String) :
    dgetD (inDegreeTable graph allModules) w 0 = totalCount graph w := by
  unfold inDegreeTable totalCount inDegreeInit
  rw [inDegreeFold_dgetD]
  unfold dgetD
  rw [dget_constMap]
  by_cases h : w ∈ allModules <;> simp [h]

theorem inDegreeFold_dkeys (gs : List (String × List String)) (d : SDict Int)
    (K : List String) (hd : dkeys d = K)
    (hE : ∀ p ∈ gs, p.1 ∈ K ∧ ∀ v ∈ p.2, v ∈ K) :
    dkeys (gs.foldl inDegreeStep d) = K := by
  induction gs generalizing d with
  | nil => exact hd
  | cons p rest ih =>
    rw [List.foldl_cons]
    refine ih _ (inDegreeStep_dkeys d p K hd (hE p (List.mem_cons_self _ _)).1
      (hE p (List.mem_cons_self _ _)).2) (fun q hq => hE q (List.mem_cons_of_mem _ hq))

theorem inDegreeTable_dkeys (graph : SDict (List String)) (allModules : List String)
    (hE : ∀ p ∈ graph, p.1 ∈ allModules ∧ ∀ v ∈ p.2, v ∈ allModules) :
    dkeys (inDegreeTable graph allModules) = allModules := by
  unfold inDegreeTable
  exact inDegreeFold_dkeys graph _ _ (dkeys_constMap _ _) hE

/- ===== C1 development: remaining in-degree counts ===== -/

theorem remCount_nonneg (graph : SDict (List String)) (sorted : List String) (v : String) :
    0 ≤ remCount graph sorted v := by
  unfold remCount
  refine List.sum_nonneg ?_
  intro x hx
  rcases List.mem_map.mp hx with ⟨p, _, hpx⟩
  rw [← hpx]
  exact Int.natCast_nonneg _

theorem remCount_nil (graph : SDict (List String)) (v : String) :
    remCount graph [] v = totalCount graph v := by
  unfold remCount totalCount
  rw [List.filter_eq_self.mpr (fun p _ => by simp)]

theorem entry_le_remCount (graph : SDict (List String)) (sorted : List String)
    (v : String) (p : String × List String) (hp : p ∈ graph) (hps : p.1 ∉ sorted) :
    (p.2.count v : Int) ≤ remCount graph sorted v := by
  induction graph with
  | nil => simp at hp
  | cons q rest ih =>
    rcases List.mem_cons.mp hp with he | hm
    · subst he
      unfold remCount
      rw [List.filter_cons, if_pos (by simpa using hps)]
      rw [List.map_cons, List.sum_cons]
      have := remCount_nonneg rest sorted v
      unfold remCount at this
      omega
    · unfold remCount
      rw [List.filter_cons]
      by_cases hq : q.1 ∉ sorted
      · rw [if_pos (by simpa using hq), List.map_cons, List.sum_cons]
        have h2 := ih hm
        unfold remCount at h2
        have : (0 : Int) ≤ (q.2.count v : Int) := Int.natCast_nonneg _
        omega
      · rw [if_neg (by simpa using hq)]
        exact ih hm

theorem remCount_zero_source_sorted (graph : SDict (List String)) (sorted : List String)
    (v : String) (h0 : remCount graph sorted v = 0) (p : String × List String)
    (hp : p ∈ graph) (hpv : v ∈ p.2) : p.1 ∈ sorted := by
  by_contra hps
  have h1 := entry_le_remCount graph sorted v p hp hps
  rw [h0] at h1
  have h2 : p.2.count v ≠ 0 := by
    intro h
    exact absurd hpv (List.count_eq_zero.mp h)
  omega

theorem remCount_append_not_key (g : SDict (List String)) (sorted : List String)
    (u v : String) (hu : u ∉ dkeys g) :
    remCount g (sorted ++ [u]) v = remCount g sorted v := by
  induction g with
  | nil => rfl
  | cons q rest ih =>
    have hd : dkeys (q :: rest) = q.1 :: dkeys rest := rfl
    rw [hd] at hu
    have h1 : ¬(q.1 = u) := fun he => hu (by simp [he])
    have h2 : u ∉ dkeys rest := fun he => hu (List.mem_cons_of_mem _ he)
    unfold remCount
    rw [List.filter_cons, List.filter_cons]
    have hmem : (q.1 ∉ sorted ++ [u]) ↔ (q.1 ∉ sorted) := by
      simp [List.mem_append, h1]
    by_cases hq : q.1 ∉ sorted
    · rw [if_pos (by simpa using hmem.mpr hq), if_pos (by simpa using hq)]
      rw [List.map_cons, List.sum_cons, List.map_cons, List.sum_cons]
      have h3 := ih h2
      unfold remCount at h3
      omega
    · rw [if_neg (by simpa using fun h => hq (hmem.mp h)), if_neg (by simpa using hq)]
      exact ih h2

theorem dgetD_graph_entry (graph : SDict (List String)) (u : String) :
    dgetD graph u [] = [] ∨ (u, dgetD graph u []) ∈ graph := by
  unfold dgetD
  cases hg : dget graph u with
  | none => exact Or.inl rfl
  | some l => exact Or.inr (mem_of_dget_eq_some graph u l hg)

theorem dgetD_count_le_remCount (graph : SDict (List String)) (sorted : List String)
    (u v : String) (hus : u ∉ sorted) :
    ((dgetD graph u []).count v : Int) ≤ remCount graph sorted v := by
  rcases dgetD_graph_entry graph u with h | h
  · rw [h]
    simpa using remCount_nonneg graph sorted v
  · exact entry_le_remCount graph sorted v (u, dgetD graph u []) h hus

theorem remCount_append (graph : SDict (List String)) (sorted : List String)
    (u v : String) (hGN : (dkeys graph).Nodup) (hus : u ∉ sorted) :
    remCount graph (sorted ++ [u]) v
      = remCount graph sorted v - ((dgetD graph u []).count v : Int) := by
  induction graph with
  | nil =>
    show remCount [] (sorted ++ [u]) v = remCount [] sorted v - ((dgetD ([] : SDict (List String)) u []).count v : Int)
    simp [remCount, dgetD, dget]
  | cons q rest ih =>
    obtain ⟨k, l⟩ := q
    have hd : dkeys ((k, l) :: rest) = k :: dkeys rest := rfl
    rw [hd] at hGN
    have hk1 : k ∉ dkeys rest := (List.nodup_cons.mp hGN).1
    have hk2 : (dkeys rest).Nodup := (List.nodup_cons.mp hGN).2
    by_cases hku : k = u
    · subst hku
      have hget : dgetD ((k, l) :: rest) k [] = l := by
        unfold dgetD
        simp [dget]
      rw [hget]
      unfold remCount
      rw [List.filter_cons, List.filter_cons]
      rw [if_neg (by simp), if_pos (by simpa using hus)]
      rw [List.map_cons, List.sum_cons]
      simp only [show ((k, l).2.count v : Int) = (l.count v : Int) from rfl]
      have h3 := remCount_append_not_key rest sorted k v hk1
      unfold remCount at h3
      omega
    · have hget : dgetD ((k, l) :: rest) u [] = dgetD rest u [] := by
        unfold dgetD
        simp [dget, hku]
      rw [hget]
      unfold remCount
      rw [List.filter_cons, List.filter_cons]
      have hmem : (k ∉ sorted ++ [u]) ↔ (k ∉ sorted) := by
        simp [List.mem_append, hku]
      by_cases hq : k ∉ sorted
      · rw [if_pos (by simpa using hmem.mpr hq), if_pos (by simpa using hq)]
        rw [List.map_cons, List.sum_cons, List.map_cons, List.sum_cons]
        have h3 := ih hk2
        unfold remCount at h3
        omega
      · rw [if_neg (by simpa using fun h => hq (hmem.mp h)), if_neg (by simpa using hq)]
        exact ih hk2

/- ===== C1 development: the Kahn inner fold ===== -/

theorem kahnDecStep_fst (st : SDict Int × List String) (v : String) :
    (kahnDecStep st v).1 = dset st.1 v (dgetD st.1 v 0 - 1) := rfl

theorem kahnDecStep_snd (st : SDict Int × List String) (v : String) :
    (kahnDecStep st v).2 = if dgetD st.1 v 0 - 1 = 0 then st.2 ++ [v] else st.2 := rfl

theorem kahnDec_dgetD (l : List String) (st : SDict Int × List String) (w : String) :
    dgetD (l.foldl kahnDecStep st).1 w 0 = dgetD st.1 w 0 - l.count w := by
  induction l generalizing st with
  | nil => simp
  | cons v rest ih =>
    rw [List.foldl_cons, ih, kahnDecStep_fst]
    by_cases h : v = w
    · subst h
      rw [List.count_cons_self]
      unfold dgetD
      rw [dget_dset_self]
      simp only [Option.getD_some]
      push_cast
      ring
    · rw [List.count_cons_of_ne (fun he => h (Eq.symm he))]
      unfold dgetD
      rw [dget_dset_ne st.1 v w _ (fun he => h (Eq.symm he))]

theorem kahnDec_dkeys (l : List String) (st : SDict Int × List String) (K : List String)
    (hd : dkeys st.1 = K) (hl : ∀ v ∈ l, v ∈ K) :
    dkeys (l.foldl kahnDecStep st).1 = K := by
  induction l generalizing st with
  | nil => exact hd
  | cons v rest ih =>
    rw [List.foldl_cons]
    refine ih _ ?_ (fun x hx => hl x (List.mem_cons_of_mem _ hx))
    rw [kahnDecStep_fst]
    rw [dkeys_dset_of_mem _ _ _ (by rw [hd]; exact hl v (List.mem_cons_self _ _)), hd]

theorem kahnDec_queue_mem (l : List String) (st : SDict Int × List String) (w : String) :
    w ∈ (l.foldl kahnDecStep st).2 ↔
      w ∈ st.2 ∨ (1 ≤ dgetD st.1 w 0 ∧ dgetD st.1 w 0 ≤ (l.count w : Int)) := by
  induction l generalizing st with
  | nil =>
    constructor
    · exact fun h => Or.inl h
    · rintro (h | ⟨h1, h2⟩)
      · exact h
      · exfalso
        simp only [List.count_nil, Nat.cast_zero] at h2
        omega
  | cons v rest ih =>
    rw [List.foldl_cons, ih]
    by_cases hvw : v = w
    · subst hvw
      rw [List.count_cons_self]
      rw [kahnDecStep_snd, kahnDecStep_fst]
      unfold dgetD
      rw [dget_dset_self]
      simp only [Option.getD_some]
      by_cases hz : (dget st.1 v).getD 0 - 1 = 0
      · rw [if_pos hz]
        constructor
        · intro _
          right
          push_cast
          omega
        · intro _
          exact Or.inl (List.mem_append_right _ (List.mem_singleton.mpr rfl))
      · rw [if_neg hz]
        constructor
        · rintro (h | ⟨h1, h2⟩)
          · exact Or.inl h
          · right
            push_cast at h2 ⊢
            omega
        · rintro (h | ⟨h1, h2⟩)
          · exact Or.inl h
          · right
            push_cast at h2 ⊢
            omega
    · rw [List.count_cons_of_ne (fun he => hvw (Eq.symm he))]
      rw [kahnDecStep_snd, kahnDecStep_fst]
      unfold dgetD
      rw [dget_dset_ne st.1 v w _ (fun he => hvw (Eq.symm he))]
      by_cases hz : dgetD st.1 v 0 - 1 = 0
      · unfold dgetD at hz
        rw [if_pos hz]
        constructor
        · rintro (h | hr)
          · rcases List.mem_append.mp h with h | h
            · exact Or.inl h
            · exact absurd (List.mem_singleton.mp h) (fun he => hvw (Eq.symm he))
          · exact Or.inr hr
        · rintro (h | hr)
          · exact Or.inl (List.mem_append_left _ h)
          · exact Or.inr hr
      · unfold dgetD at hz
        rw [if_neg hz]

theorem kahnDec_queue_nodup (l : List String) (st : SDict Int × List String)
    (hq : st.2.Nodup) (hle : ∀ w ∈ st.2, dgetD st.1 w 0 ≤ 0) :
    (l.foldl kahnDecStep st).2.Nodup := by
  induction l generalizing st with
  | nil => exact hq
  | cons v rest ih =>
    rw [List.foldl_cons]
    have hall : ∀ w ∈ (kahnDecStep st v).2, dgetD (kahnDecStep st v).1 w 0 ≤ 0 := by
      intro w hw
      rw [kahnDecStep_snd] at hw
      rw [kahnDecStep_fst]
      by_cases hvw : v = w
      · subst hvw
        unfold dgetD
        rw [dget_dset_self]
        simp only [Option.getD_some]
        by_cases hz : dgetD st.1 v 0 - 1 = 0
        · unfold dgetD at hz
          omega
        · rw [if_neg hz] at hw
          have := hle v hw
          unfold dgetD at this hz
          omega
      · unfold dgetD
        rw [dget_dset_ne st.1 v w _ (fun he => hvw (Eq.symm he))]
        have hwst : w ∈ st.2 := by
          by_cases hz : dgetD st.1 v 0 - 1 = 0
          · rw [if_pos hz] at hw
            rcases List.mem_append.mp hw with h | h
            · exact h
            · exact absurd (List.mem_singleton.mp h) (fun he => hvw (Eq.symm he))
          · rwa [if_neg hz] at hw
        have := hle w hwst
        unfold dgetD at this
        exact this
    have hnd : (kahnDecStep st v).2.Nodup := by
      rw [kahnDecStep_snd]
      by_cases hz : dgetD st.1 v 0 - 1 = 0
      · rw [if_pos hz]
        have hvq : v ∉ st.2 := by
          intro hv
          have := hle v hv
          omega
        exact List.Nodup.append hq (List.nodup_singleton v)
          (fun a ha hb => hvq (by rwa [← List.mem_singleton.mp hb]))
      · rw [if_neg hz]
        exact hq
    exact ih _ hnd hall

/- ===== C1 development: the Kahn loop invariant ===== -/

theorem dgetD_graph_sub (graph : SDict (List String)) (allModules : List String)
    (hE : ∀ p ∈ graph, p.1 ∈ allModules ∧ ∀ v ∈ p.2, v ∈ allModules) (u : String) :
    ∀ v ∈ dgetD graph u [], v ∈ allModules := by
  intro v hv
  rcases dgetD_graph_entry graph u with h | h
  · rw [h] at hv
    simp at hv
  · exact (hE _ h).2 v hv

theorem kahnInv_step (graph : SDict (List String)) (allModules : List String)
    (hE : ∀ p ∈ graph, p.1 ∈ allModules ∧ ∀ v ∈ p.2, v ∈ allModules)
    (hGN : (dkeys graph).Nodup)
    (inDeg : SDict Int) (u : String) (rest sorted : List String)
    (hInv : KahnInv graph allModules inDeg (u :: rest) sorted) :
    KahnInv graph allModules (kahnStep graph inDeg rest u).1
      (kahnStep graph inDeg rest u).2 (sorted ++ [u]) := by
  obtain ⟨huM, huS, huR⟩ := (hInv.queueIff u).mp (List.mem_cons_self _ _)
  have hrestNd : rest.Nodup := (List.nodup_cons.mp hInv.queueNodup).2
  have hurest : u ∉ rest := (List.nodup_cons.mp hInv.queueNodup).1
  have hlsub : ∀ v ∈ dgetD graph u [], v ∈ allModules := dgetD_graph_sub graph allModules hE u
  have hcountle : ∀ v, ((dgetD graph u []).count v : Int) ≤ remCount graph sorted v :=
    fun v => dgetD_count_le_remCount graph sorted u v huS
  have hrem : ∀ v, remCount graph (sorted ++ [u]) v
      = remCount graph sorted v - ((dgetD graph u []).count v : Int) :=
    fun v => remCount_append graph sorted u v hGN huS
  unfold kahnStep
  refine ⟨?_, ?_, ?_, ?_, ?_, ?_, ?_, ?_⟩
  · exact kahnDec_dkeys _ _ _ (by rw [show ((inDeg, rest) : SDict Int × List String).1 = inDeg from rfl]; exact hInv.keys) hlsub
  · intro v
    rw [kahnDec_dgetD]
    rw [show ((inDeg, rest) : SDict Int × List String).1 = inDeg from rfl]
    rw [hInv.vals v, hrem v]
  · refine List.Nodup.append hInv.sortedNodup (List.nodup_singleton u) ?_
    intro a ha hb
    rw [List.mem_singleton.mp hb] at ha
    exact huS ha
  · refine kahnDec_queue_nodup _ _ hrestNd ?_
    intro w hw
    rw [show ((inDeg, rest) : SDict Int × List String).1 = inDeg from rfl]
    obtain ⟨_, _, hw0⟩ := (hInv.queueIff w).mp (List.mem_cons_of_mem _ hw)
    rw [hInv.vals w, hw0]
  · intro v hv
    rcases List.mem_append.mp hv with h | h
    · exact hInv.sortedSub v h
    · rw [List.mem_singleton.mp h]
      exact huM
  · intro v
    rw [kahnDec_queue_mem]
    rw [show ((inDeg, rest) : SDict Int × List String).1 = inDeg from rfl]
    rw [show ((inDeg, rest) : SDict Int × List String).2 = rest from rfl]
    rw [hInv.vals v, hrem v]
    constructor
    · rintro (h | ⟨h1, h2⟩)
      · obtain ⟨hM, hS, h0⟩ := (hInv.queueIff v).mp (List.mem_cons_of_mem _ h)
        have hvu : v ≠ u := fun he => hurest (he ▸ h)
        have hc0 : ((dgetD graph u []).count v : Int) = 0 := by
          have := hcountle v
          have hc := Int.natCast_nonneg ((dgetD graph u []).count v)
          omega
        refine ⟨hM, ?_, by omega⟩
        intro hmem
        rcases List.mem_append.mp hmem with h' | h'
        · exact hS h'
        · exact hvu (List.mem_singleton.mp h')
      · have hcount1 : 1 ≤ (dgetD graph u []).count v := by
          have : (1 : Int) ≤ ((dgetD graph u []).count v : Int) := le_trans h1 h2
          exact_mod_cast this
        have hvl : v ∈ dgetD graph u [] := by
          by_contra hc
          rw [List.count_eq_zero.mpr hc] at hcount1
          omega
        have hvM : v ∈ allModules := hlsub v hvl
        have hvS : v ∉ sorted := by
          intro hs
          have := hInv.sortedZero v hs
          omega
        have hvu : v ≠ u := by
          intro he
          rw [he] at h1
          omega
        refine ⟨hvM, ?_, ?_⟩
        · intro hmem
          rcases List.mem_append.mp hmem with h' | h'
          · exact hvS h'
          · exact hvu (List.mem_singleton.mp h')
        · have hge := remCount_nonneg graph (sorted ++ [u]) v
          rw [hrem v] at hge
          omega
    · rintro ⟨hM, hS', h0⟩
      have hvS : v ∉ sorted := fun h => hS' (List.mem_append_left _ h)
      have hvu : v ≠ u := fun he => hS' (List.mem_append_right _ (by simp [he]))
      by_cases hc : 1 ≤ (dgetD graph u []).count v
      · right
        constructor
        · have : (1 : Int) ≤ ((dgetD graph u []).count v : Int) := by exact_mod_cast hc
          omega
        · omega
      · left
        push_neg at hc
        have hc0 : (dgetD graph u []).count v = 0 := by omega
        have : remCount graph sorted v = 0 := by
          rw [hc0] at h0
          simp at h0
          omega
        have hq := (hInv.queueIff v).mpr ⟨hM, hvS, this⟩
        rcases List.mem_cons.mp hq with he | hm
        · exact absurd he hvu
        · exact hm
  · intro v hv
    rw [hrem v]
    rcases List.mem_append.mp hv with h | h
    · have h0 := hInv.sortedZero v h
      have hle := hcountle v
      have hge := Int.natCast_nonneg ((dgetD graph u []).count v)
      omega
    · rw [List.mem_singleton.mp h]
      have hle := hcountle u
      have hge := Int.natCast_nonneg ((dgetD graph u []).count u)
      omega
  · intro v hv p hp hvp
    rcases List.mem_append.mp hv with h | h
    · obtain ⟨A, B, hAB, hvB⟩ := hInv.sortedBefore v h p hp hvp
      refine ⟨A, B ++ [u], ?_, List.mem_append_left _ hvB⟩
      rw [hAB]
      rw [List.append_assoc]
      rfl
    · rw [List.mem_singleton.mp h] at hvp ⊢
      have hpS : p.1 ∈ sorted := remCount_zero_source_sorted graph sorted u huR p hp hvp
      obtain ⟨A, B, hAB⟩ := List.append_of_mem hpS
      refine ⟨A, B ++ [u], ?_, List.mem_append_right _ (by simp)⟩
      rw [hAB]
      rw [List.append_assoc]
      rfl

theorem kahnInv_init (graph : SDict (List String)) (allModules : List String)
    (hE : ∀ p ∈ graph, p.1 ∈ allModules ∧ ∀ v ∈ p.2, v ∈ allModules)
    (hND : allModules.Nodup) :
    KahnInv graph allModules (inDegreeTable graph allModules)
      (initQueue (inDegreeTable graph allModules)) [] := by
  have hkeys := inDegreeTable_dkeys graph allModules hE
  refine ⟨hkeys, ?_, List.nodup_nil, ?_, by simp, ?_, by simp, by simp⟩
  · intro v
    rw [inDegreeTable_dgetD, remCount_nil]
  · unfold initQueue
    refine List.Nodup.sublist (List.Sublist.map Prod.fst (List.filter_sublist _)) ?_
    rw [show (inDegreeTable graph allModules).map Prod.fst
        = dkeys (inDegreeTable graph allModules) from rfl, hkeys]
    exact hND
  · intro v
    unfold initQueue
    constructor
    · intro hv
      rcases List.mem_map.mp hv with ⟨p, hpf, hpv⟩
      have hpmem := (List.mem_filter.mp hpf).1
      have hp0 : p.2 = 0 := by
        have := (List.mem_filter.mp hpf).2
        simpa using this
      have hget : dget (inDegreeTable graph allModules) p.1 = some p.2 := by
        refine dget_eq_some_of_mem_of_nodup _ _ _ (by rw [hkeys]; exact hND) ?_
        rw [show (p.1, p.2) = p from rfl]
        exact hpmem
      have hvM : v ∈ allModules := by
        rw [← hkeys, ← hpv]
        exact (dget_isSome_iff_mem _ _).mp (by rw [hget]; rfl)
      refine ⟨hvM, by simp, ?_⟩
      rw [remCount_nil, ← inDegreeTable_dgetD graph allModules v]
      unfold dgetD
      rw [← hpv, hget, hp0]
      rfl
    · rintro ⟨hvM, -, h0⟩
      rw [remCount_nil, ← inDegreeTable_dgetD graph allModules v] at h0
      have hsome : (dget (inDegreeTable graph allModules) v).isSome = true :=
        (dget_isSome_iff_mem _ _).mpr (by rw [hkeys]; exact hvM)
      cases hget : dget (inDegreeTable graph allModules) v with
      | none => rw [hget] at hsome; exact absurd hsome (by simp)
      | some x =>
        have hx0 : x = 0 := by
          unfold dgetD at h0
          rw [hget] at h0
          simpa using h0
        refine List.mem_map.mpr ⟨(v, x), ?_, rfl⟩
        refine List.mem_filter.mpr ⟨mem_of_dget_eq_some _ _ _ hget, by simp [hx0]⟩

theorem kahnLoop_spec (graph : SDict (List String)) (allModules : List String)
    (hE : ∀ p ∈ graph, p.1 ∈ allModules ∧ ∀ v ∈ p.2, v ∈ allModules)
    (hGN : (dkeys graph).Nodup) :
    ∀ fuel inDeg queue sorted, KahnInv graph allModules inDeg queue sorted →
      (kahnLoop graph fuel inDeg queue sorted).Nodup ∧
      (∀ v ∈ kahnLoop graph fuel inDeg queue sorted, v ∈ allModules) ∧
      (∀ v ∈ kahnLoop graph fuel inDeg queue sorted, ∀ p ∈ graph, v ∈ p.2 →
        ∃ A B, kahnLoop graph fuel inDeg queue sorted = A ++ p.1 :: B ∧ v ∈ B) := by
  intro fuel
  induction fuel with
  | zero =>
    intro inDeg queue sorted hInv
    exact ⟨hInv.sortedNodup, hInv.sortedSub, hInv.sortedBefore⟩
  | succ fuel ih =>
    intro inDeg queue sorted hInv
    match queue with
    | [] => exact ⟨hInv.sortedNodup, hInv.sortedSub, hInv.sortedBefore⟩
    | u :: rest =>
      exact ih _ _ _ (kahnInv_step graph allModules hE hGN inDeg u rest sorted hInv)

theorem topologicalSort_spec (graph : SDict (List String)) (allModules : List String)
    (hE : ∀ p ∈ graph, p.1 ∈ allModules ∧ ∀ v ∈ p.2, v ∈ allModules)
    (hGN : (dkeys graph).Nodup) (hND : allModules.Nodup)
    (hA : topologicalSort graph allModules ≠ []) :
    (topologicalSort graph allModules).Nodup ∧
    (∀ v, v ∈ topologicalSort graph allModules ↔ v ∈ allModules) ∧
    (∀ u v, wfEdge graph u v →
      ∃ A B, topologicalSort graph allModules = A ++ u :: B ∧ v ∈ B) := by
  have hspec := kahnLoop_spec graph allModules hE hGN
    ((inDegreeTable graph allModules).length + 1) (inDegreeTable graph allModules)
    (initQueue (inDegreeTable graph allModules)) []
    (kahnInv_init graph allModules hE hND)
  have hTS : topologicalSort graph allModules
      = if (kahnLoop graph ((inDegreeTable graph allModules).length + 1)
            (inDegreeTable graph allModules)
            (initQueue (inDegreeTable graph allModules)) []).length
          = (inDegreeTable graph allModules).length
        then kahnLoop graph ((inDegreeTable graph allModules).length + 1)
            (inDegreeTable graph allModules)
            (initQueue (inDegreeTable graph allModules)) []
        else [] := rfl
  by_cases hlen : (kahnLoop graph ((inDegreeTable graph allModules).length + 1)
      (inDegreeTable graph allModules) (initQueue (inDegreeTable graph allModules)) []).length
      = (inDegreeTable graph allModules).length
  · rw [hTS, if_pos hlen] at *
    obtain ⟨hnd, hsub, hbefore⟩ := hspec
    have hlenM : (inDegreeTable graph allModules).length = allModules.length := by
      rw [show (inDegreeTable graph allModules).length
          = (dkeys (inDegreeTable graph allModules)).length from
            (List.length_map _ _).symm,
        inDegreeTable_dkeys graph allModules hE]
    have hmem : ∀ v, v ∈ kahnLoop graph ((inDegreeTable graph allModules).length + 1)
        (inDegreeTable graph allModules) (initQueue (inDegreeTable graph allModules)) []
        ↔ v ∈ allModules := by
      set R := kahnLoop graph ((inDegreeTable graph allModules).length + 1)
        (inDegreeTable graph allModules) (initQueue (inDegreeTable graph allModules)) []
      have hfin : R.toFinset = allModules.toFinset := by
        refine Finset.eq_of_subset_of_card_le ?_ ?_
        · intro x hx
          exact List.mem_toFinset.mpr (hsub x (List.mem_toFinset.mp hx))
        · rw [List.toFinset_card_of_nodup hnd, List.toFinset_card_of_nodup hND]
          omega
      intro v
      constructor
      · exact hsub v
      · intro hv
        exact List.mem_toFinset.mp (hfin ▸ List.mem_toFinset.mpr hv)
    refine ⟨hnd, hmem, ?_⟩
    intro u v hedge
    have hne : dgetD graph u [] ≠ [] := by
      intro h
      unfold wfEdge at hedge
      rw [h] at hedge
      simp at hedge
    rcases dgetD_graph_entry graph u with h | h
    · exact absurd h hne
    · have hvM : v ∈ allModules := (hE _ h).2 v hedge
      exact hbefore v ((hmem v).mpr hvM) (u, dgetD graph u []) h hedge
  · rw [hTS, if_neg hlen] at hA
    exact absurd rfl hA

/- ===== C1 development: positions and the distance order ===== -/

theorem firstPos_append_of_not_mem (A l : List String) (a : String) (ha : a ∉ A) :
    firstPos (A ++ l) a = A.length + firstPos l a := by
  induction A with
  | nil => simp [firstPos]
  | cons x rest ih =>
    have h1 : ¬(x = a) := fun he => ha (by simp [he])
    have h2 : a ∉ rest := fun he => ha (List.mem_cons_of_mem _ he)
    show firstPos (x :: (rest ++ l)) a = _
    rw [show firstPos (x :: (rest ++ l)) a
        = if x = a then 0 else firstPos (rest ++ l) a + 1 from rfl]
    rw [if_neg h1, ih h2]
    simp only [List.length_cons]
    omega

theorem firstPos_append_mem (A l : List String) (a : String) (ha : a ∈ A) :
    firstPos (A ++ l) a < A.length := by
  induction A with
  | nil => simp at ha
  | cons x rest ih =>
    show firstPos (x :: (rest ++ l)) a < _
    rw [show firstPos (x :: (rest ++ l)) a
        = if x = a then 0 else firstPos (rest ++ l) a + 1 from rfl]
    by_cases h : x = a
    · rw [if_pos h]
      simp
    · rw [if_neg h]
      have h2 : a ∈ rest := by
        rcases List.mem_cons.mp ha with he | hm
        · exact absurd (Eq.symm he) h
        · exact hm
      have := ih h2
      simp only [List.length_cons]
      omega

theorem firstPos_lt_length (S : List String) (a : String) (ha : a ∈ S) :
    firstPos S a < S.length := by
  have := firstPos_append_mem S [] a ha
  rwa [List.append_nil] at this

theorem firstPos_lt_of_split (S A B : List String) (a b : String)
    (hS : S = A ++ a :: B) (hnd : S.Nodup) (hb : b ∈ B) :
    firstPos S a < firstPos S b := by
  subst hS
  have hand := List.nodup_append.mp hnd
  have haA : a ∉ A := fun h => hand.2.2 h (List.mem_cons_self _ _)
  have hbA : b ∉ A := fun h => hand.2.2 h (List.mem_cons_of_mem _ hb)
  have hba : ¬(a = b) := by
    intro he
    subst he
    exact (List.nodup_cons.mp hand.2.1).1 hb
  rw [firstPos_append_of_not_mem A _ a haA, firstPos_append_of_not_mem A _ b hbA]
  rw [show firstPos (a :: B) a = if a = a then 0 else firstPos B a + 1 from rfl]
  rw [show firstPos (a :: B) b = if a = b then 0 else firstPos B b + 1 from rfl]
  rw [if_pos rfl, if_neg hba]
  omega

theorem distLE_refl (a : Option Int) : distLE a a := by
  cases a <;> simp [distLE]

theorem distLE_trans (a b c : Option Int) (h1 : distLE a b) (h2 : distLE b c) :
    distLE a c := by
  cases a <;> cases b <;> cases c <;> simp [distLE] at * <;> omega

theorem distLE_none (a : Option Int) : distLE a none := by
  cases a <;> simp [distLE]

theorem optLt_false_distLE (x y : Option Int) (h : optLt x y = false) : distLE y x := by
  cases x <;> cases y <;> simp [optLt, distLE] at * <;> omega

theorem optLt_true_distLE (x y : Option Int) (h : optLt x y = true) : distLE x y := by
  cases x <;> cases y <;> simp [optLt, distLE] at * <;> omega

theorem distLE_optAdd (a b : Option Int) (c : Int) (h : distLE a b) :
    distLE (optAdd a c) (optAdd b c) := by
  cases a <;> cases b <;> simp [optAdd, distLE] at * <;> omega

theorem distLE_some_elim (a : Option Int) (c : Int) (h : distLE a (some c)) :
    ∃ x, a = some x ∧ x ≤ c := by
  cases a with
  | none => simp [distLE] at h
  | some x => exact ⟨x, rfl, by simpa [distLE] using h⟩

/- ===== C1 development: the relaxation inner fold ===== -/

theorem relaxFold_untouched (costs : SDict Int) (u : String) (l : List String)
    (p : SDict (Option Int) × SDict (Option String)) (w : String) (hw : w ∉ l) :
    dget (l.foldl (relaxOne costs u) p).1 w = dget p.1 w ∧
    dget (l.foldl (relaxOne costs u) p).2 w = dget p.2 w := by
  induction l generalizing p with
  | nil => exact ⟨rfl, rfl⟩
  | cons v rest ih =>
    have hwv : ¬(v = w) := fun he => hw (by simp [he])
    have hwr : w ∉ rest := fun he => hw (List.mem_cons_of_mem _ he)
    rw [List.foldl_cons]
    have hstep : dget (relaxOne costs u p v).1 w = dget p.1 w ∧
        dget (relaxOne costs u p v).2 w = dget p.2 w := by
      unfold relaxOne
      by_cases hc : optLt (optAdd (dgetD p.1 u none) (dgetD costs v 0)) (dgetD p.1 v none) = true
      · rw [if_pos hc]
        exact ⟨dget_dset_ne _ _ _ _ (fun he => hwv (Eq.symm he)),
               dget_dset_ne _ _ _ _ (fun he => hwv (Eq.symm he))⟩
      · rw [if_neg hc]
        exact ⟨rfl, rfl⟩
    obtain ⟨h1, h2⟩ := ih (relaxOne costs u p v) hwr
    exact ⟨h1.trans hstep.1, h2.trans hstep.2⟩

theorem relaxOne_decreasing (costs : SDict Int) (u : String)
    (p : SDict (Option Int) × SDict (Option String)) (v w : String) :
    distLE (dgetD (relaxOne costs u p v).1 w none) (dgetD p.1 w none) := by
  unfold relaxOne
  by_cases hc : optLt (optAdd (dgetD p.1 u none) (dgetD costs v 0)) (dgetD p.1 v none) = true
  · rw [if_pos hc]
    by_cases hvw : v = w
    · subst hvw
      show distLE (dgetD (dset p.1 v _) v none) _
      unfold dgetD
      rw [dget_dset_self]
      simp only [Option.getD_some]
      exact optLt_true_distLE _ _ hc
    · show distLE (dgetD (dset p.1 v _) w none) _
      unfold dgetD
      rw [dget_dset_ne _ _ _ _ (fun he => hvw (Eq.symm he))]
      exact distLE_refl _
  · rw [if_neg hc]
    exact distLE_refl _

theorem relaxFold_decreasing (costs : SDict Int) (u : String) (l : List String)
    (p : SDict (Option Int) × SDict (Option String)) (w : String) :
    distLE (dgetD (l.foldl (relaxOne costs u) p).1 w none) (dgetD p.1 w none) := by
  induction l generalizing p with
  | nil => exact distLE_refl _
  | cons v rest ih =>
    rw [List.foldl_cons]
    exact distLE_trans _ _ _ (ih (relaxOne costs u p v)) (relaxOne_decreasing costs u p v w)

theorem dgetD_dset_self {α : Type} (d : SDict α) (k : String) (v w₀ : α) :
    dgetD (dset d k v) k w₀ = v := by
  unfold dgetD
  rw [dget_dset_self]
  rfl

theorem dgetD_dset_ne {α : Type} (d : SDict α) (k k' : String) (v w₀ : α)
    (h : k' ≠ k) : dgetD (dset d k v) k' w₀ = dgetD d k' w₀ := by
  unfold dgetD
  rw [dget_dset_ne d k k' v h]

theorem relaxOne_fst (costs : SDict Int) (u : String)
    (p : SDict (Option Int) × SDict (Option String)) (v : String) :
    (relaxOne costs u p v).1
      = if optLt (optAdd (dgetD p.1 u none) (dgetD costs v 0)) (dgetD p.1 v none)
        then dset p.1 v (optAdd (dgetD p.1 u none) (dgetD costs v 0)) else p.1 := by
  unfold relaxOne
  by_cases hc : optLt (optAdd (dgetD p.1 u none) (dgetD costs v 0)) (dgetD p.1 v none) = true
  · rw [if_pos hc, if_pos hc]
  · rw [if_neg hc, if_neg hc]

theorem relaxOne_snd (costs : SDict Int) (u : String)
    (p : SDict (Option Int) × SDict (Option String)) (v : String) :
    (relaxOne costs u p v).2
      = if optLt (optAdd (dgetD p.1 u none) (dgetD costs v 0)) (dgetD p.1 v none)
        then dset p.2 v (some u) else p.2 := by
  unfold relaxOne
  by_cases hc : optLt (optAdd (dgetD p.1 u none) (dgetD costs v 0)) (dgetD p.1 v none) = true
  · rw [if_pos hc, if_pos hc]
  · rw [if_neg hc, if_neg hc]

theorem relaxOne_fst_at_ne (costs : SDict Int) (u : String)
    (p : SDict (Option Int) × SDict (Option String)) (v w : String) (hvw : ¬(w = v)) :
    dgetD (relaxOne costs u p v).1 w none = dgetD p.1 w none := by
  rw [relaxOne_fst]
  by_cases hc : optLt (optAdd (dgetD p.1 u none) (dgetD costs v 0)) (dgetD p.1 v none) = true
  · rw [if_pos hc, dgetD_dset_ne _ _ _ _ _ hvw]
  · rw [if_neg hc]

theorem relaxFold_bound (costs : SDict Int) (u : String) (l : List String)
    (p : SDict (Option Int) × SDict (Option String)) (du : Int)
    (hul : u ∉ l) (hdu : dgetD p.1 u none = some du) :
    ∀ v ∈ l, distLE (dgetD (l.foldl (relaxOne costs u) p).1 v none)
      (some (du + dgetD costs v 0)) := by
  induction l generalizing p with
  | nil => intro v hv; simp at hv
  | cons v₀ rest ih =>
    have hvu : ¬(v₀ = u) := fun he => hul (by simp [he])
    have huv : ¬(u = v₀) := fun he => hvu (Eq.symm he)
    have hur : u ∉ rest := fun he => hul (List.mem_cons_of_mem _ he)
    intro v hv
    rw [List.foldl_cons]
    have hdu1 : dgetD (relaxOne costs u p v₀).1 u none = some du := by
      rw [relaxOne_fst_at_ne costs u p v₀ u huv]
      exact hdu
    rcases List.mem_cons.mp hv with he | hm
    · subst he
      have hopt : optAdd (dgetD p.1 u none) (dgetD costs v 0) = some (du + dgetD costs v 0) := by
        rw [hdu]
        rfl
      have hafter : distLE (dgetD (relaxOne costs u p v).1 v none)
          (some (du + dgetD costs v 0)) := by
        rw [relaxOne_fst]
        by_cases hc : optLt (optAdd (dgetD p.1 u none) (dgetD costs v 0)) (dgetD p.1 v none) = true
        · rw [if_pos hc, dgetD_dset_self, hopt]
          exact distLE_refl _
        · rw [if_neg hc]
          rw [hopt] at hc
          exact optLt_false_distLE _ _ (by simpa using hc)
      by_cases hvr : v ∈ rest
      · exact ih (relaxOne costs u p v) hur hdu1 v hvr
      · have huntouched := relaxFold_untouched costs u rest (relaxOne costs u p v) v hvr
        show distLE (dgetD (rest.foldl (relaxOne costs u) (relaxOne costs u p v)).1 v none) _
        unfold dgetD
        rw [huntouched.1]
        unfold dgetD at hafter
        exact hafter
    · exact ih (relaxOne costs u p v₀) hur hdu1 v hm

theorem relaxFold_cases (costs : SDict Int) (u : String) (l : List String)
    (p : SDict (Option Int) × SDict (Option String)) (hul : u ∉ l) :
    ∀ w, (dget (l.foldl (relaxOne costs u) p).1 w = dget p.1 w ∧
          dget (l.foldl (relaxOne costs u) p).2 w = dget p.2 w) ∨
      (w ∈ l ∧
        dget (l.foldl (relaxOne costs u) p).1 w
          = some (optAdd (dgetD p.1 u none) (dgetD costs w 0)) ∧
        dget (l.foldl (relaxOne costs u) p).2 w = some (some u)) := by
  induction l generalizing p with
  | nil => intro w; exact Or.inl ⟨rfl, rfl⟩
  | cons v rest ih =>
    have hvu : ¬(v = u) := fun he => hul (by simp [he])
    have huv : ¬(u = v) := fun he => hvu (Eq.symm he)
    have hur : u ∉ rest := fun he => hul (List.mem_cons_of_mem _ he)
    intro w
    rw [List.foldl_cons]
    have hdu1 : dgetD (relaxOne costs u p v).1 u none = dgetD p.1 u none :=
      relaxOne_fst_at_ne costs u p v u huv
    by_cases hc : optLt (optAdd (dgetD p.1 u none) (dgetD costs v 0)) (dgetD p.1 v none) = true
    · have hstep1 : (relaxOne costs u p v).1
          = dset p.1 v (optAdd (dgetD p.1 u none) (dgetD costs v 0)) := by
        rw [relaxOne_fst, if_pos hc]
      have hstep2 : (relaxOne costs u p v).2 = dset p.2 v (some u) := by
        rw [relaxOne_snd, if_pos hc]
      rcases ih (relaxOne costs u p v) hur w with ⟨h1, h2⟩ | ⟨hm, h1, h2⟩
      · by_cases hvw : v = w
        · subst hvw
          refine Or.inr ⟨List.mem_cons_self _ _, ?_, ?_⟩
          · rw [h1, hstep1, dget_dset_self]
          · rw [h2, hstep2, dget_dset_self]
        · refine Or.inl ⟨?_, ?_⟩
          · rw [h1, hstep1, dget_dset_ne _ _ _ _ (fun he => hvw (Eq.symm he))]
          · rw [h2, hstep2, dget_dset_ne _ _ _ _ (fun he => hvw (Eq.symm he))]
      · refine Or.inr ⟨List.mem_cons_of_mem _ hm, ?_, h2⟩
        rw [h1, hdu1]
    · have hstep : relaxOne costs u p v = p := by
        unfold relaxOne
        rw [if_neg hc]
      rw [hstep]
      rcases ih p hur w with ⟨h1, h2⟩ | ⟨hm, h1, h2⟩
      · exact Or.inl ⟨h1, h2⟩
      · exact Or.inr ⟨List.mem_cons_of_mem _ hm, h1, h2⟩

theorem relaxFold_dkeys (costs : SDict Int) (u : String) (l : List String)
    (p : SDict (Option Int) × SDict (Option String))
    (hl1 : ∀ v ∈ l, v ∈ dkeys p.1) (hl2 : ∀ v ∈ l, v ∈ dkeys p.2) :
    dkeys (l.foldl (relaxOne costs u) p).1 = dkeys p.1 ∧
    dkeys (l.foldl (relaxOne costs u) p).2 = dkeys p.2 := by
  induction l generalizing p with
  | nil => exact ⟨rfl, rfl⟩
  | cons v rest ih =>
    rw [List.foldl_cons]
    have hstep : dkeys (relaxOne costs u p v).1 = dkeys p.1 ∧
        dkeys (relaxOne costs u p v).2 = dkeys p.2 := by
      constructor
      · rw [relaxOne_fst]
        by_cases hc : optLt (optAdd (dgetD p.1 u none) (dgetD costs v 0)) (dgetD p.1 v none) = true
        · rw [if_pos hc]
          exact dkeys_dset_of_mem _ _ _ (hl1 v (List.mem_cons_self _ _))
        · rw [if_neg hc]
      · rw [relaxOne_snd]
        by_cases hc : optLt (optAdd (dgetD p.1 u none) (dgetD costs v 0)) (dgetD p.1 v none) = true
        · rw [if_pos hc]
          exact dkeys_dset_of_mem _ _ _ (hl2 v (List.mem_cons_self _ _))
        · rw [if_neg hc]
    obtain ⟨h1, h2⟩ := ih (relaxOne costs u p v)
      (fun x hx => by rw [hstep.1]; exact hl1 x (List.mem_cons_of_mem _ hx))
      (fun x hx => by rw [hstep.2]; exact hl2 x (List.mem_cons_of_mem _ hx))
    exact ⟨h1.trans hstep.1, h2.trans hstep.2⟩

/- ===== C1 development: the relaxation invariant ===== -/

theorem pathTo_fp (graph : SDict (List String)) (costs : SDict Int) (start : String)
    (S : List String) (hT : ∀ a b, wfEdge graph a b → firstPos S a < firstPos S b) :
    ∀ v c, PathTo graph costs start v c → v = start ∨ firstPos S start < firstPos S v := by
  intro v c hp
  induction hp with
  | base => exact Or.inl rfl
  | @step u w c' hpath hedge ih =>
    right
    rcases ih with he | hlt
    · rw [he] at hedge
      exact hT start w hedge
    · exact lt_trans hlt (hT u w hedge)

theorem pathTo_mem (graph : SDict (List String)) (costs : SDict Int)
    (allModules : List String) (start : String)
    (hE : ∀ p ∈ graph, p.1 ∈ allModules ∧ ∀ v ∈ p.2, v ∈ allModules)
    (hstart : start ∈ allModules) :
    ∀ v c, PathTo graph costs start v c → v ∈ allModules := by
  intro v c hp
  induction hp with
  | base => exact hstart
  | @step u w c' hpath hedge ih =>
    unfold wfEdge at hedge
    exact dgetD_graph_sub graph allModules hE u w hedge

theorem dgetD_congr {α : Type} (A B : SDict α) (w : String) (v₀ : α)
    (h : dget A w = dget B w) : dgetD A w v₀ = dgetD B w v₀ := by
  unfold dgetD
  rw [h]

theorem dgetD_of_dget_some {α : Type} (A : SDict α) (w : String) (v₀ x : α)
    (h : dget A w = some x) : dgetD A w v₀ = x := by
  unfold dgetD
  rw [h]
  rfl

theorem relaxInv_step (graph : SDict (List String)) (costs : SDict Int)
    (allModules : List String) (start : String) (S : List String)
    (hE : ∀ p ∈ graph, p.1 ∈ allModules ∧ ∀ v ∈ p.2, v ∈ allModules)
    (hSnd : S.Nodup)
    (hT : ∀ a b, wfEdge graph a b → firstPos S a < firstPos S b)
    (processed : List String) (u : String) (T : List String)
    (hsplit : S = processed ++ u :: T)
    (M : SDict (Option Int)) (P : SDict (Option String))
    (hInv : RelaxInv graph costs allModules start processed M P) :
    RelaxInv graph costs allModules start (processed ++ [u])
      (relaxEdges graph costs (M, P) u).1 (relaxEdges graph costs (M, P) u).2 := by
  by_cases hdu : dgetD M u none = none
  · have heq : relaxEdges graph costs (M, P) u = (M, P) := by
      unfold relaxEdges
      rw [if_pos hdu]
    rw [heq]
    refine ⟨hInv.keysM, hInv.keysP, hInv.mStart, hInv.pStart, ?_, hInv.pathEx, hInv.predNone⟩
    intro v u' h
    obtain ⟨hedge, hmem, hne, hrel⟩ := hInv.predRel v u' h
    exact ⟨hedge, List.mem_append_left _ hmem, hne, hrel⟩
  · obtain ⟨du, hdu'⟩ : ∃ du, dgetD M u none = some du := by
      cases h : dgetD M u none with
      | none => exact absurd h hdu
      | some x => exact ⟨x, rfl⟩
    have hcond : ¬(dgetD ((M, P) : SDict (Option Int) × SDict (Option String)).1 u none
        = none) := by
      show ¬(dgetD M u none = none)
      rw [hdu']
      simp
    have heq : relaxEdges graph costs (M, P) u
        = (dgetD graph u []).foldl (relaxOne costs u) (M, P) := by
      unfold relaxEdges
      rw [if_neg hcond]
    rw [heq]
    have hul : u ∉ dgetD graph u [] := by
      intro hmem
      exact absurd (hT u u hmem) (lt_irrefl _)
    have hlM : ∀ v ∈ dgetD graph u [], v ∈ allModules := dgetD_graph_sub graph allModules hE u
    have hup : u ∉ processed := by
      intro hmem
      have hand := List.nodup_append.mp (hsplit ▸ hSnd)
      exact hand.2.2 hmem (List.mem_cons_self _ _)
    have hfpu : firstPos S u = processed.length := by
      rw [hsplit, firstPos_append_of_not_mem _ _ _ hup]
      rw [show firstPos (u :: T) u = if u = u then 0 else firstPos T u + 1 from rfl]
      rw [if_pos rfl]
      omega
    have hfp_proc : ∀ w ∈ processed, firstPos S w < firstPos S u := by
      intro w hw
      rw [hfpu, hsplit]
      exact firstPos_append_mem _ _ _ hw
    have hcases := relaxFold_cases costs u (dgetD graph u []) (M, P) hul
    have hproc : ∀ w ∈ processed,
        dget ((dgetD graph u []).foldl (relaxOne costs u) (M, P)).1 w = dget M w ∧
        dget ((dgetD graph u []).foldl (relaxOne costs u) (M, P)).2 w = dget P w := by
      intro w hw
      rcases hcases w with h | ⟨hwl, _, _⟩
      · exact h
      · exact absurd (hT u w hwl) (not_lt.mpr (le_of_lt (hfp_proc w hw)))
    have hstart_unch :
        dget ((dgetD graph u []).foldl (relaxOne costs u) (M, P)).1 start = dget M start ∧
        dget ((dgetD graph u []).foldl (relaxOne costs u) (M, P)).2 start = dget P start := by
      rcases hcases start with h | ⟨hsl, _, _⟩
      · exact h
      · exfalso
        have hpath := hInv.pathEx u du hdu'
        rcases pathTo_fp graph costs start S hT u du hpath with he | hlt
        · rw [he] at hul hsl
          exact hul hsl
        · exact absurd (hT u start hsl) (not_lt.mpr (le_of_lt hlt))
    have hu_unch := relaxFold_untouched costs u (dgetD graph u []) (M, P) u hul
    refine ⟨?_, ?_, ?_, ?_, ?_, ?_, ?_⟩
    · rw [(relaxFold_dkeys costs u (dgetD graph u []) (M, P)
        (fun v hv => by rw [show ((M, P) : _ × _).1 = M from rfl, hInv.keysM]; exact hlM v hv)
        (fun v hv => by rw [show ((M, P) : _ × _).2 = P from rfl, hInv.keysP]; exact hlM v hv)).1]
      exact hInv.keysM
    · rw [(relaxFold_dkeys costs u (dgetD graph u []) (M, P)
        (fun v hv => by rw [show ((M, P) : _ × _).1 = M from rfl, hInv.keysM]; exact hlM v hv)
        (fun v hv => by rw [show ((M, P) : _ × _).2 = P from rfl, hInv.keysP]; exact hlM v hv)).2]
      exact hInv.keysP
    · rw [dgetD_congr _ _ _ _ hstart_unch.1]
      exact hInv.mStart
    · rw [dgetD_congr _ _ _ _ hstart_unch.2]
      exact hInv.pStart
    · intro v u' h
      rcases hcases v with ⟨h1, h2⟩ | ⟨hvl, h1, h2⟩
      · have hPv : dgetD P v none = some u' := (dgetD_congr _ _ _ _ h2).symm.trans h
        obtain ⟨hedge, hmem, hne, hrel⟩ := hInv.predRel v u' hPv
        refine ⟨hedge, List.mem_append_left _ hmem, ?_, ?_⟩
        · rw [dgetD_congr _ _ _ _ (hproc u' hmem).1]
          exact hne
        · rw [dgetD_congr _ _ _ _ h1, dgetD_congr _ _ _ _ (hproc u' hmem).1]
          exact hrel
      · have hu'u : u' = u := by
          rw [dgetD_of_dget_some _ _ _ _ h2] at h
          simpa using h.symm
        subst hu'u
        refine ⟨hvl, List.mem_append_right _ (by simp), ?_, ?_⟩
        · rw [dgetD_congr _ _ _ _ hu_unch.1, hdu']
          simp
        · rw [dgetD_of_dget_some _ _ _ _ h1, dgetD_congr _ _ _ _ hu_unch.1]
    · intro v dv h
      rcases hcases v with ⟨h1, _⟩ | ⟨hvl, h1, _⟩
      · exact hInv.pathEx v dv ((dgetD_congr _ _ _ _ h1).symm.trans h)
      · have hval : dv = du + dgetD costs v 0 := by
          rw [dgetD_of_dget_some _ _ _ _ h1, hdu'] at h
          simpa [optAdd] using h.symm
        rw [hval]
        exact PathTo.step (hInv.pathEx u du hdu') hvl
    · intro v h
      rcases hcases v with ⟨h1, h2⟩ | ⟨hvl, h1, h2⟩
      · rcases hInv.predNone v ((dgetD_congr _ _ _ _ h2).symm.trans h) with hm | hs
        · left
          rw [dgetD_congr _ _ _ _ h1]
          exact hm
        · exact Or.inr hs
      · exfalso
        rw [dgetD_of_dget_some _ _ _ _ h2] at h
        simp at h

theorem relaxFold_inv (graph : SDict (List String)) (costs : SDict Int)
    (allModules : List String) (start : String) (S : List String)
    (hE : ∀ p ∈ graph, p.1 ∈ allModules ∧ ∀ v ∈ p.2, v ∈ allModules)
    (hSnd : S.Nodup)
    (hT : ∀ a b, wfEdge graph a b → firstPos S a < firstPos S b) :
    ∀ T processed (M : SDict (Option Int)) (P : SDict (Option String)),
      S = processed ++ T →
      RelaxInv graph costs allModules start processed M P →
      RelaxInv graph costs allModules start (processed ++ T)
        (T.foldl (relaxEdges graph costs) (M, P)).1
        (T.foldl (relaxEdges graph costs) (M, P)).2 := by
  intro T
  induction T with
  | nil =>
    intro processed M P _ hInv
    rw [List.append_nil]
    exact hInv
  | cons u T' ih =>
    intro processed M P hsplit hInv
    have hstep := relaxInv_step graph costs allModules start S hE hSnd hT processed u T'
      hsplit M P hInv
    have hsplit' : S = (processed ++ [u]) ++ T' := by
      rw [hsplit, List.append_assoc]
      rfl
    have h2 := ih (processed ++ [u]) (relaxEdges graph costs (M, P) u).1
      (relaxEdges graph costs (M, P) u).2 hsplit' hstep
    have hpair : ((relaxEdges graph costs (M, P) u).1, (relaxEdges graph costs (M, P) u).2)
        = relaxEdges graph costs (M, P) u := rfl
    rw [hpair] at h2
    rw [List.foldl_cons]
    rw [show processed ++ u :: T' = (processed ++ [u]) ++ T' by
      rw [List.append_assoc]; rfl]
    exact h2

theorem relaxInv_init (graph : SDict (List String)) (costs : SDict Int)
    (allModules : List String) (start : String) (hstart : start ∈ allModules) :
    RelaxInv graph costs allModules start []
      (dset (allModules.map (fun m => (m, (none : Option Int)))) start (some 0))
      (allModules.map (fun m => (m, (none : Option String)))) := by
  have hPv : ∀ v, dgetD (allModules.map (fun m => (m, (none : Option String)))) v none
      = none := by
    intro v
    unfold dgetD
    rw [dget_constMap]
    by_cases hv : v ∈ allModules <;> simp [hv]
  have hMv : ∀ v, v ≠ start →
      dgetD (dset (allModules.map (fun m => (m, (none : Option Int)))) start (some 0)) v none
        = none := by
    intro v hv
    unfold dgetD
    rw [dget_dset_ne _ _ _ _ hv, dget_constMap]
    by_cases hm : v ∈ allModules <;> simp [hm]
  refine ⟨?_, dkeys_constMap _ _, ?_, hPv start, ?_, ?_, ?_⟩
  · rw [dkeys_dset_of_mem _ _ _ (by rw [dkeys_constMap]; exact hstart), dkeys_constMap]
  · exact dgetD_of_dget_some _ _ _ _ (dget_dset_self _ _ _)
  · intro v u' h
    rw [hPv v] at h
    cases h
  · intro v dv h
    by_cases hv : v = start
    · subst hv
      have h0 : dgetD (dset (allModules.map (fun m => (m, (none : Option Int)))) v (some 0))
          v none = some 0 := dgetD_of_dget_some _ _ _ _ (dget_dset_self _ _ _)
      rw [h0] at h
      have : (0 : Int) = dv := by
        injection h
      rw [← this]
      exact PathTo.base
    · rw [hMv v hv] at h
      cases h
  · intro v _
    by_cases hv : v = start
    · exact Or.inr hv
    · exact Or.inl (hMv v hv)

theorem relaxFold_freeze (graph : SDict (List String)) (costs : SDict Int)
    (B : List String) (q : SDict (Option Int) × SDict (Option String)) (x : String)
    (hno : ∀ w ∈ B, x ∉ dgetD graph w []) :
    dget (B.foldl (relaxEdges graph costs) q).1 x = dget q.1 x := by
  induction B generalizing q with
  | nil => rfl
  | cons w B' ih =>
    rw [List.foldl_cons]
    have hstep : dget (relaxEdges graph costs q w).1 x = dget q.1 x := by
      unfold relaxEdges
      by_cases hw : dgetD q.1 w none = none
      · rw [if_pos hw]
      · rw [if_neg hw]
        exact (relaxFold_untouched costs w (dgetD graph w []) q x
          (hno w (List.mem_cons_self _ _))).1
    rw [ih (relaxEdges graph costs q w)
      (fun w' hw' => hno w' (List.mem_cons_of_mem _ hw')), hstep]

theorem relaxOuter_decreasing (graph : SDict (List String)) (costs : SDict Int)
    (T : List String) (q : SDict (Option Int) × SDict (Option String)) (w : String) :
    distLE (dgetD (T.foldl (relaxEdges graph costs) q).1 w none) (dgetD q.1 w none) := by
  induction T generalizing q with
  | nil => exact distLE_refl _
  | cons u T' ih =>
    rw [List.foldl_cons]
    refine distLE_trans _ _ _ (ih (relaxEdges graph costs q u)) ?_
    unfold relaxEdges
    by_cases hu : dgetD q.1 u none = none
    · rw [if_pos hu]
      exact distLE_refl _
    · rw [if_neg hu]
      exact relaxFold_decreasing costs u _ q w

theorem relaxEdges_guard_none (graph : SDict (List String)) (costs : SDict Int)
    (p : SDict (Option Int) × SDict (Option String)) (u : String)
    (h : dgetD p.1 u none = none) : relaxEdges graph costs p u = p := by
  unfold relaxEdges
  rw [if_pos h]

theorem relaxEdges_guard_some (graph : SDict (List String)) (costs : SDict Int)
    (p : SDict (Option Int) × SDict (Option String)) (u : String)
    (h : ¬(dgetD p.1 u none = none)) :
    relaxEdges graph costs p u = (dgetD graph u []).foldl (relaxOne costs u) p := by
  unfold relaxEdges
  rw [if_neg h]

theorem relax_edge_bound (graph : SDict (List String)) (costs : SDict Int)
    (allModules : List String) (S : List String)
    (hE : ∀ p ∈ graph, p.1 ∈ allModules ∧ ∀ v ∈ p.2, v ∈ allModules)
    (hSnd : S.Nodup)
    (hT : ∀ a b, wfEdge graph a b → firstPos S a < firstPos S b)
    (hSmem : ∀ v, v ∈ S ↔ v ∈ allModules)
    (init : SDict (Option Int) × SDict (Option String))
    (u v : String) (hedge : wfEdge graph u v) :
    distLE (dgetD (S.foldl (relaxEdges graph costs) init).1 v none)
      (optAdd (dgetD (S.foldl (relaxEdges graph costs) init).1 u none)
        (dgetD costs v 0)) := by
  have huM : u ∈ allModules := by
    rcases dgetD_graph_entry graph u with h | h
    · unfold wfEdge at hedge
      rw [h] at hedge
      simp at hedge
    · exact (hE _ h).1
  have huS : u ∈ S := (hSmem u).mpr huM
  obtain ⟨A, B, hAB⟩ := List.append_of_mem huS
  have hfold : S.foldl (relaxEdges graph costs) init
      = B.foldl (relaxEdges graph costs)
          (relaxEdges graph costs (A.foldl (relaxEdges graph costs) init) u) := by
    rw [hAB, List.foldl_append, List.foldl_cons]
  have hno : ∀ w ∈ B, u ∉ dgetD graph w [] := by
    intro w hw hmem
    have h1 := hT w u hmem
    have h2 := firstPos_lt_of_split S A B u w hAB hSnd hw
    omega
  have hfreeze : dget (S.foldl (relaxEdges graph costs) init).1 u
      = dget (relaxEdges graph costs (A.foldl (relaxEdges graph costs) init) u).1 u := by
    rw [hfold]
    exact relaxFold_freeze graph costs B _ u hno
  have hulu : u ∉ dgetD graph u [] := by
    intro hmem
    exact absurd (hT u u hmem) (lt_irrefl _)
  by_cases hq1 : dgetD (A.foldl (relaxEdges graph costs) init).1 u none = none
  · have hq2 : relaxEdges graph costs (A.foldl (relaxEdges graph costs) init) u
        = A.foldl (relaxEdges graph costs) init :=
      relaxEdges_guard_none graph costs _ u hq1
    have hfin : dgetD (S.foldl (relaxEdges graph costs) init).1 u none = none := by
      rw [dgetD_congr _ _ _ _ hfreeze, hq2]
      exact hq1
    rw [hfin]
    exact distLE_none _
  · obtain ⟨du, hdu⟩ : ∃ du,
        dgetD (A.foldl (relaxEdges graph costs) init).1 u none = some du := by
      cases h : dgetD (A.foldl (relaxEdges graph costs) init).1 u none with
      | none => exact absurd h hq1
      | some x => exact ⟨x, rfl⟩
    have hq2 : relaxEdges graph costs (A.foldl (relaxEdges graph costs) init) u
        = (dgetD graph u []).foldl (relaxOne costs u)
            (A.foldl (relaxEdges graph costs) init) :=
      relaxEdges_guard_some graph costs _ u hq1
    have hq2u : dgetD (relaxEdges graph costs (A.foldl (relaxEdges graph costs) init) u).1
        u none = some du := by
      rw [hq2]
      rw [dgetD_congr _ _ _ _ (relaxFold_untouched costs u (dgetD graph u []) _ u hulu).1]
      exact hdu
    have hfinu : dgetD (S.foldl (relaxEdges graph costs) init).1 u none = some du := by
      rw [dgetD_congr _ _ _ _ hfreeze]
      exact hq2u
    have hbound : distLE (dgetD (relaxEdges graph costs
          (A.foldl (relaxEdges graph costs) init) u).1 v none)
        (some (du + dgetD costs v 0)) := by
      rw [hq2]
      exact relaxFold_bound costs u (dgetD graph u []) _ du hulu hdu v hedge
    have hmono : distLE (dgetD (S.foldl (relaxEdges graph costs) init).1 v none)
        (dgetD (relaxEdges graph costs (A.foldl (relaxEdges graph costs) init) u).1
          v none) := by
      rw [hfold]
      exact relaxOuter_decreasing graph costs B _ v
    rw [hfinu]
    exact distLE_trans _ _ _ hmono hbound

theorem relax_minimal (graph : SDict (List String)) (costs : SDict Int)
    (allModules : List String) (start : String) (S : List String)
    (hE : ∀ p ∈ graph, p.1 ∈ allModules ∧ ∀ v ∈ p.2, v ∈ allModules)
    (hSnd : S.Nodup)
    (hT : ∀ a b, wfEdge graph a b → firstPos S a < firstPos S b)
    (hSmem : ∀ v, v ∈ S ↔ v ∈ allModules)
    (init : SDict (Option Int) × SDict (Option String))
    (hstart0 : dgetD (S.foldl (relaxEdges graph costs) init).1 start none = some 0) :
    ∀ v c, PathTo graph costs start v c →
      distLE (dgetD (S.foldl (relaxEdges graph costs) init).1 v none) (some c) := by
  intro v c hp
  induction hp with
  | base =>
    rw [hstart0]
    show distLE (some 0) (some 0)
    exact distLE_refl _
  | @step u w c' hpath hedge ih =>
    refine distLE_trans _ _ _
      (relax_edge_bound graph costs allModules S hE hSnd hT hSmem init u w hedge) ?_
    have h1 := distLE_optAdd _ _ (dgetD costs w 0) ih
    exact h1

/- ===== C1 development: route reconstruction ===== -/

theorem routeWalk_spec (graph : SDict (List String)) (costs : SDict Int)
    (allModules : List String) (start : String) (S : List String)
    (hT : ∀ a b, wfEdge graph a b → firstPos S a < firstPos S b)
    (M : SDict (Option Int)) (P : SDict (Option String))
    (hInv : RelaxInv graph costs allModules start S M P) :
    ∀ fuel v dv acc, dgetD M v none = some dv → firstPos S v + 1 ≤ fuel →
      ∃ q : List String, routeWalk P start fuel v acc = acc ++ q ∧
        q.reverse.head? = some start ∧ q.reverse.getLast? = some v ∧
        List.Chain' (wfEdge graph) q.reverse ∧ planCost costs q.reverse = dv := by
  intro fuel
  induction fuel with
  | zero =>
    intro v dv acc _ hf
    omega
  | succ fuel ih =>
    intro v dv acc hM hf
    by_cases hvs : v = start
    · have h0 : dv = 0 := by
        rw [hvs] at hM
        have := hInv.mStart.symm.trans hM
        injection this with h'
        exact h'.symm
      refine ⟨[v], ?_, ?_, rfl, List.chain'_singleton v, ?_⟩
      · rw [show routeWalk P start (fuel + 1) v acc
            = (if v = start then acc ++ [v] else
                match dgetD P v none with
                | none => acc ++ [v]
                | some c => routeWalk P start fuel c (acc ++ [v])) from rfl]
        rw [if_pos hvs]
      · show some v = some start
        rw [hvs]
      · rw [h0]
        rfl
    · have hPv : ∃ u', dgetD P v none = some u' := by
        cases hp : dgetD P v none with
        | none =>
          rcases hInv.predNone v hp with hm | hs
          · rw [hm] at hM
            cases hM
          · exact absurd hs hvs
        | some x => exact ⟨x, rfl⟩
      obtain ⟨u', hPv⟩ := hPv
      obtain ⟨hedge, _, hMu'ne, hrel⟩ := hInv.predRel v u' hPv
      obtain ⟨du, hMu'⟩ : ∃ du, dgetD M u' none = some du := by
        cases h : dgetD M u' none with
        | none => exact absurd h hMu'ne
        | some x => exact ⟨x, rfl⟩
      have hdv : dv = du + dgetD costs v 0 := by
        rw [hrel, hMu'] at hM
        have : some (du + dgetD costs v 0) = some dv := hM
        injection this with h'
        exact h'.symm
      have hfp : firstPos S u' < firstPos S v := hT u' v hedge
      have hfu : firstPos S u' + 1 ≤ fuel := by omega
      obtain ⟨q', hwalk, hhead, hlast, hchain, hcost⟩ := ih u' du (acc ++ [v]) hMu' hfu
      obtain ⟨t, ht⟩ : ∃ t, q'.reverse = start :: t := by
        cases hq : q'.reverse with
        | nil =>
          rw [hq] at hhead
          cases hhead
        | cons a t =>
          rw [hq] at hhead
          have : a = start := by
            injection hhead
          exact ⟨t, by rw [this]⟩
      refine ⟨v :: q', ?_, ?_, ?_, ?_, ?_⟩
      · rw [show routeWalk P start (fuel + 1) v acc
            = (if v = start then acc ++ [v] else
                match dgetD P v none with
                | none => acc ++ [v]
                | some c => routeWalk P start fuel c (acc ++ [v])) from rfl]
        rw [if_neg hvs, hPv]
        show routeWalk P start fuel u' (acc ++ [v]) = acc ++ v :: q'
        rw [hwalk, List.append_assoc]
        rfl
      · rw [List.reverse_cons, ht]
        rfl
      · rw [List.reverse_cons]
        exact List.getLast?_concat _
      · rw [List.reverse_cons]
        refine List.Chain'.append hchain (List.chain'_singleton v) ?_
        intro x hx y hy
        rw [hlast] at hx
        simp at hx hy
        rw [← hx, ← hy]
        exact hedge
      · rw [List.reverse_cons, ht]
        show planCost costs (start :: (t ++ [v])) = dv
        unfold planCost
        rw [show (start :: (t ++ [v])).drop 1 = t ++ [v] from rfl]
        rw [List.map_append, List.sum_append]
        have hc' : planCost costs (start :: t) = du := by
          rw [← ht]
          exact hcost
        unfold planCost at hc'
        rw [show (start :: t).drop 1 = t from rfl] at hc'
        rw [hc', hdv]
        simp

/- ===== C1 ===== -/

/-- C1: for every dependency graph and cost table whose topological sort
    completes (the planner's own acyclicity check) and whose end module is
    reachable from the start module, the route reconstructed by
    `_get_optimal_route` from `_find_shortest_path`'s tables starts at the
    start module, ends at the end module, follows only graph edges, and its
    total cost (the sum of the costs of every node but the first) equals
    `min_costs[end]`, which is minimal over all start-to-end paths under the
    edge-weight `cost[v]`. -/
theorem c1_planner_optimal_route
    (graph : SDict (List String)) (costs : SDict Int) (allModules : List String)
    (start endM : String)
    (hND : allModules.Nodup)
    (hGN : (dkeys graph).Nodup)
    (hE : ∀ p ∈ graph, p.1 ∈ allModules ∧ ∀ v ∈ p.2, v ∈ allModules)
    (hStart : start ∈ allModules)
    (hAcyclic : topologicalSort graph allModules ≠ [])
    (hReach : ∃ c, PathTo graph costs start endM c) :
    (getOptimalRoute start endM (findShortestPath graph costs start allModules).2).head?
      = some start ∧
    (getOptimalRoute start endM (findShortestPath graph costs start allModules).2).getLast?
      = some endM ∧
    List.Chain' (wfEdge graph)
      (getOptimalRoute start endM (findShortestPath graph costs start allModules).2) ∧
    dgetD (findShortestPath graph costs start allModules).1 endM none
      = some (planCost costs
          (getOptimalRoute start endM (findShortestPath graph costs start allModules).2)) ∧
    ∀ c, PathTo graph costs start endM c →
      planCost costs
        (getOptimalRoute start endM (findShortestPath graph costs start allModules).2)
        ≤ c := by
  obtain ⟨hSnd, hSmem, hbefore⟩ := topologicalSort_spec graph allModules hE hGN hND hAcyclic
  have hT : ∀ a b, wfEdge graph a b →
      firstPos (topologicalSort graph allModules) a
        < firstPos (topologicalSort graph allModules) b := by
    intro a b he
    obtain ⟨A, B, hAB, hbB⟩ := hbefore a b he
    exact firstPos_lt_of_split _ A B a b hAB hSnd hbB
  have hsome : (dget (allModules.map (fun m => (m, (none : Option Int)))) start).isSome
      = true := by
    rw [dget_constMap, if_pos hStart]
    rfl
  have hFS : findShortestPath graph costs start allModules
      = (topologicalSort graph allModules).foldl (relaxEdges graph costs)
          (dset (allModules.map (fun m => (m, (none : Option Int)))) start (some 0),
           allModules.map (fun m => (m, (none : Option String)))) := by
    unfold findShortestPath
    rw [if_neg hAcyclic, if_pos hsome]
  have hInvF := relaxFold_inv graph costs allModules start
    (topologicalSort graph allModules) hE hSnd hT (topologicalSort graph allModules) []
    (dset (allModules.map (fun m => (m, (none : Option Int)))) start (some 0))
    (allModules.map (fun m => (m, (none : Option String))))
    rfl (relaxInv_init graph costs allModules start hStart)
  rw [List.nil_append] at hInvF
  obtain ⟨c₀, hp₀⟩ := hReach
  have hmin := relax_minimal graph costs allModules start
    (topologicalSort graph allModules) hE hSnd hT hSmem
    (dset (allModules.map (fun m => (m, (none : Option Int)))) start (some 0),
     allModules.map (fun m => (m, (none : Option String))))
    hInvF.mStart
  obtain ⟨dend, hMend, _⟩ := distLE_some_elim _ _ (hmin endM c₀ hp₀)
  have hguard : ¬(dgetD ((topologicalSort graph allModules).foldl (relaxEdges graph costs)
        (dset (allModules.map (fun m => (m, (none : Option Int)))) start (some 0),
         allModules.map (fun m => (m, (none : Option String))))).2 endM none = none
      ∧ endM ≠ start) := by
    rintro ⟨hn, hne⟩
    rcases hInvF.predNone endM hn with hm | hs
    · rw [hm] at hMend
      cases hMend
    · exact hne hs
  have hendM : endM ∈ allModules :=
    pathTo_mem graph costs allModules start hE hStart endM c₀ hp₀
  have hSlen : (topologicalSort graph allModules).length = allModules.length := by
    have hfin : (topologicalSort graph allModules).toFinset = allModules.toFinset := by
      ext x
      rw [List.mem_toFinset, List.mem_toFinset]
      exact hSmem x
    have h1 := List.toFinset_card_of_nodup hSnd
    have h2 := List.toFinset_card_of_nodup hND
    rw [hfin] at h1
    omega
  have hPlen : ((topologicalSort graph allModules).foldl (relaxEdges graph costs)
        (dset (allModules.map (fun m => (m, (none : Option Int)))) start (some 0),
         allModules.map (fun m => (m, (none : Option String))))).2.length
      = allModules.length := by
    have := hInvF.keysP
    have h1 : (dkeys ((topologicalSort graph allModules).foldl (relaxEdges graph costs)
        (dset (allModules.map (fun m => (m, (none : Option Int)))) start (some 0),
         allModules.map (fun m => (m, (none : Option String))))).2).length
        = allModules.length := by rw [this]
    rw [← h1]
    exact (List.length_map _ _).symm
  have hfuel : firstPos (topologicalSort graph allModules) endM + 1
      ≤ ((topologicalSort graph allModules).foldl (relaxEdges graph costs)
        (dset (allModules.map (fun m => (m, (none : Option Int)))) start (some 0),
         allModules.map (fun m => (m, (none : Option String))))).2.length + 1 := by
    have h1 := firstPos_lt_length (topologicalSort graph allModules) endM
      ((hSmem endM).mpr hendM)
    rw [hPlen]
    omega
  obtain ⟨q, hwalk, hhead, hlast, hchain, hcost⟩ := routeWalk_spec graph costs allModules
    start (topologicalSort graph allModules) hT _ _ hInvF
    (((topologicalSort graph allModules).foldl (relaxEdges graph costs)
        (dset (allModules.map (fun m => (m, (none : Option Int)))) start (some 0),
         allModules.map (fun m => (m, (none : Option String))))).2.length + 1)
    endM dend [] hMend hfuel
  have hroute : getOptimalRoute start endM
      ((topologicalSort graph allModules).foldl (relaxEdges graph costs)
        (dset (allModules.map (fun m => (m, (none : Option Int)))) start (some 0),
         allModules.map (fun m => (m, (none : Option String))))).2
      = q.reverse := by
    unfold getOptimalRoute
    rw [if_neg hguard, hwalk]
    rw [List.nil_append]
  rw [hFS, hroute]
  refine ⟨hhead, hlast, hchain, ?_, ?_⟩
  · rw [hcost]
    exact hMend
  · intro c hp
    have h1 := hmin endM c hp
    rw [hMend] at h1
    have h2 : dend ≤ c := by simpa [distLE] using h1
    rw [hcost]
    exact h2

/-- Witness for the C1 theorem at a concrete three-module workflow: graph
    a → b, a → c, b → c with costs a=1, b=2, c=3, planning from "a" to "c". -/
theorem c1_planner_optimal_route_witness :
    (getOptimalRoute "a" "c" (findShortestPath wGraph wCosts "a" wModules).2).head?
      = some "a" ∧
    (getOptimalRoute "a" "c" (findShortestPath wGraph wCosts "a" wModules).2).getLast?
      = some "c" ∧
    List.Chain' (wfEdge wGraph)
      (getOptimalRoute "a" "c" (findShortestPath wGraph wCosts "a" wModules).2) ∧
    dgetD (findShortestPath wGraph wCosts "a" wModules).1 "c" none
      = some (planCost wCosts
          (getOptimalRoute "a" "c" (findShortestPath wGraph wCosts "a" wModules).2)) ∧
    (∀ c, PathTo wGraph wCosts "a" "c" c →
      planCost wCosts
        (getOptimalRoute "a" "c" (findShortestPath wGraph wCosts "a" wModules).2) ≤ c) :=
  c1_planner_optimal_route wGraph wCosts wModules "a" "c"
    (by decide) (by decide) (by decide) (by decide) (by decide)
    ⟨0 + dgetD wCosts "c" 0, PathTo.step PathTo.base (by decide)⟩
